import Mathlib

/-
Verification of the hash-table engines of the rust-hashtables repository.

Modelling conventions, used throughout this file:

* Each Rust module is embedded in its own namespace (`OpenHashing`,
  `ChainingHashing`, `CuckooHashing`, `QuadCuckooHashing`,
  `ConcurrentOptimized`); the struct and function names of the Rust source
  are kept.
* The tables are generic over `K : Hash + Eq` and `V`.  The opaque-to-the-code
  `DefaultHasher` is modelled by an explicit function argument
  `hash : K → Nat` (for the seeded cuckoo hashers, a family
  `fam : Nat → K → Nat` applied to a stored seed); `hash as usize % len`
  becomes `hash key % len`.
* `f64` load/fill factors are modelled by exact rationals: the division
  `length as f64 / len as f64` becomes `mkRat length len`, and the single
  addition `fill_factor() + tomb_factor()` becomes `qadd`, which is proved
  equal to rational addition in `qadd_eq`.  All comparisons appearing in the
  concrete runs below are far from any f64 rounding boundary.
* `rand::thread_rng` is modelled by a stream `supply : Nat → Nat` together
  with a cursor `rng_ctr` stored in the table, advanced by each draw.
* Rust's in-place mutation becomes explicit state passing; a panic
  (assertion failure or overflow of an `unreachable!` arm) and a
  non-terminating loop both become `Option.none`.  The mutually recursive
  insert/rehash pair of each engine is embedded with an explicit recursion
  budget `gas` that is consumed once per rehash; a result `some r` of
  `insert_gas` means the Rust call terminates with result `r`.
-/

/-- Exact rational addition through numerators and denominators; used for the
`fill_factor() + tomb_factor()` sum of the open-addressing insert so that the
embedding evaluates by kernel reduction. -/
def qadd (a b : ℚ) : ℚ := mkRat (a.num * b.den + b.num * a.den) (a.den * b.den)

namespace OpenHashing

/-- A slot of the linear-probing table: empty, occupied, or tombstone
(the `Bucket` enum of `open_hashing.rs`). -/
inductive Bucket (K V : Type) where
  | none : Bucket K V
  | entry (key : K) (value : V) : Bucket K V
  | tomb : Bucket K V
deriving DecidableEq, Repr

/-- The `HashMap` struct of `open_hashing.rs`. -/
structure HashMap (K V : Type) where
  buckets : List (Bucket K V)
  length : Nat
  tomb_count : Nat
  load_factor : ℚ
deriving Repr

variable {K V : Type} [DecidableEq K] [DecidableEq V]

/-- Private constructor `with_exact_capacity` of `open_hashing.rs`. -/
def with_exact_capacity (capacity : Nat) (load_factor : ℚ) : HashMap K V :=
  { buckets := List.replicate capacity Bucket.none
    length := 0
    tomb_count := 0
    load_factor := load_factor }

/-- Constructor `new`: zero capacity, default load factor `0.4`. -/
def new : HashMap K V := with_exact_capacity 0 (mkRat 2 5)

/-- Constructor `with_capacity`: the requested capacity times eight. -/
def with_capacity (capacity : Nat) : HashMap K V :=
  with_exact_capacity (capacity * 8) (mkRat 2 5)

/-- Constructor `with_load_factor`. -/
def with_load_factor (load_factor : ℚ) : HashMap K V :=
  with_exact_capacity 0 load_factor

/-- Method `len`. -/
def len (m : HashMap K V) : Nat := m.length

/-- Method `is_empty`. -/
def is_empty (m : HashMap K V) : Bool := m.length == 0

/-- Method `fill_factor`: `length as f64 / buckets.len() as f64`, as an exact
rational. -/
def fill_factor (m : HashMap K V) : ℚ :=
  if m.buckets.isEmpty then 0 else mkRat m.length m.buckets.length

/-- Method `tomb_factor`: `tomb_count as f64 / buckets.len() as f64`. -/
def tomb_factor (m : HashMap K V) : ℚ :=
  if m.buckets.isEmpty then 0 else mkRat m.tomb_count m.buckets.length

/-- Method `clear`: reset the length and overwrite every slot with `None`.
Note that `tomb_count` is not touched. -/
def clear (m : HashMap K V) : HashMap K V :=
  { m with length := 0, buckets := m.buckets.map (fun _ => Bucket.none) }

/-- The probe sequence of a key: the slots from the hash index to the end of
the array followed by the slots before it.  This is the
`split_at` / `b.iter().chain(a.iter())` rotation shared by `get`, `get_mut`
and `remove`. -/
def probe_seq (hash : K → Nat) (m : HashMap K V) (key : K) : List (Bucket K V) :=
  let index := hash key % m.buckets.length
  m.buckets.drop index ++ m.buckets.take index

/-- The `find_map` body of the lookup scan: a slot yields a value exactly when
it is occupied by the key. -/
def bucket_hit (key : K) : Bucket K V → Option V
  | Bucket.entry k v => if k = key then some v else Option.none
  | _ => Option.none

/-- Whether a slot is `None`; the `take_while` predicate of the scans is its
negation. -/
def Bucket.is_vacant : Bucket K V → Bool
  | Bucket.none => true
  | _ => false

/-- The lookup scan of `get` / `get_mut`:
`take_while(not None).find_map(matching entry)`. -/
def scan_find (key : K) (l : List (Bucket K V)) : Option V :=
  (l.takeWhile (fun b => !b.is_vacant)).findSome? (bucket_hit key)

/-- Method `get`: short-circuit on the empty table, then scan the probe
sequence. -/
def get (hash : K → Nat) (m : HashMap K V) (key : K) : Option V :=
  if is_empty m then Option.none
  else scan_find key (probe_seq hash m key)

/-- Method `get_mut`: the same scan as `get` (the Rust code differs only in
returning a mutable borrow of the found value). -/
def get_mut (hash : K → Nat) (m : HashMap K V) (key : K) : Option V :=
  if is_empty m then Option.none
  else scan_find key (probe_seq hash m key)

/-- The scan of `remove`, rebuilding the scanned prefix: the first occupied
slot carrying the key becomes a `Tomb`; a `None` slot stops the scan. -/
def remove_scan (key : K) : List (Bucket K V) → List (Bucket K V) × Option V
  | [] => ([], Option.none)
  | Bucket.none :: rest => (Bucket.none :: rest, Option.none)
  | Bucket.tomb :: rest =>
      let r := remove_scan key rest
      (Bucket.tomb :: r.1, r.2)
  | Bucket.entry k v :: rest =>
      if k = key then (Bucket.tomb :: rest, some v)
      else
        let r := remove_scan key rest
        (Bucket.entry k v :: r.1, r.2)

/-- Rotate a probe sequence back into array order (the inverse bookkeeping of
`probe_seq`; the Rust code mutates the slots in place through
`split_at_mut`). -/
def unrot (index : Nat) (l : List α) : List α :=
  l.drop (l.length - index) ++ l.take (l.length - index)

/-- Method `remove`: scan the probe sequence; on a hit turn the slot into a
`Tomb`, decrement the live length and increment the tombstone count. -/
def remove (hash : K → Nat) (m : HashMap K V) (key : K) : HashMap K V × Option V :=
  if is_empty m then (m, Option.none)
  else
    match (remove_scan key (probe_seq hash m key)).2 with
    | some v =>
        ({ m with
            buckets := unrot (hash key % m.buckets.length)
              (remove_scan key (probe_seq hash m key)).1
            length := m.length - 1
            tomb_count := m.tomb_count + 1 }, some v)
    | Option.none => (m, Option.none)

/-- The probe loop of `insert`.  The Rust loop is unbounded but inspects the
unmodified array, so it either stops within one full wrap or revisits the same
slots forever; the fuel is therefore instantiated with `buckets.len()` and
running out of fuel models divergence.  The `Bool` component records whether a
`Tomb` slot was consumed. -/
def probe_loop (key : K) (value : V) :
    Nat → List (Bucket K V) → Nat → Option (List (Bucket K V) × Bool × Option V)
  | 0, _, _ => Option.none
  | fuel + 1, buckets, index =>
      match buckets.get? index with
      | Option.none => Option.none
      | some Bucket.none =>
          some (buckets.set index (Bucket.entry key value), false, Option.none)
      | some Bucket.tomb =>
          some (buckets.set index (Bucket.entry key value), true, Option.none)
      | some (Bucket.entry k v) =>
          if k = key then some (buckets.set index (Bucket.entry key value), false, some v)
          else probe_loop key value fuel buckets ((index + 1) % buckets.length)

/-- The body of `insert`, abstracted over the `rehash` call: lazily allocate
64 slots, rehash when `fill_factor() + tomb_factor() >= load_factor`, then run
the probe loop and update the counters (`length += 1` on a fresh placement,
`tomb_count -= 1` when a `Tomb` was consumed). -/
def insert_step (hash : K → Nat) (rehashFn : HashMap K V → Option (HashMap K V))
    (m : HashMap K V) (key : K) (value : V) : Option (Option V × HashMap K V) :=
  let m1 := if m.buckets.isEmpty
    then { m with buckets := List.replicate 64 Bucket.none } else m
  let pre := if m1.load_factor ≤ qadd (fill_factor m1) (tomb_factor m1)
    then rehashFn m1 else some m1
  pre.bind fun m2 =>
    let index := hash key % m2.buckets.length
    (probe_loop key value m2.buckets.length m2.buckets index).map fun r =>
      (r.2.2,
        { m2 with
            buckets := r.1
            length := if r.2.2.isSome then m2.length else m2.length + 1
            tomb_count := if r.2.1 then m2.tomb_count - 1 else m2.tomb_count })

/-- The body of `rehash`, abstracted over the recursive `insert`: build a
fresh table of double capacity and re-insert every live entry in slot
order. -/
def rehash_step (insertFn : HashMap K V → K → V → Option (Option V × HashMap K V))
    (m : HashMap K V) : Option (HashMap K V) :=
  m.buckets.foldl
    (fun acc b =>
      match b with
      | Bucket.entry k v => acc.bind fun t => (insertFn t k v).map (fun r => r.2)
      | _ => acc)
    (some (with_exact_capacity (m.buckets.length * 2) m.load_factor))

/-- Method `insert` with an explicit rehash-recursion budget. -/
def insert_gas (hash : K → Nat) :
    Nat → HashMap K V → K → V → Option (Option V × HashMap K V)
  | 0, _, _, _ => Option.none
  | gas + 1, m, key, value =>
      insert_step hash (rehash_step (insert_gas hash gas)) m key value

/-- Method `rehash` with an explicit recursion budget for its inserts. -/
def rehash_gas (hash : K → Nat) (gas : Nat) (m : HashMap K V) : Option (HashMap K V) :=
  rehash_step (insert_gas hash gas) m

/-- The number of live (occupied) slots of a bucket array. -/
def live_count (l : List (Bucket K V)) : Nat :=
  l.countP fun b => match b with | Bucket.entry _ _ => true | _ => false

/-- The number of live slots occupied by a given key. -/
def count_key (key : K) (l : List (Bucket K V)) : Nat :=
  l.countP fun b => match b with | Bucket.entry k _ => k == key | _ => false

/-- The number of tombstone slots. -/
def count_tombs (l : List (Bucket K V)) : Nat :=
  l.countP fun b => match b with | Bucket.tomb => true | _ => false

end OpenHashing

namespace OpenHashing

/-- Length consistency: the stored `length` counts the occupied slots.  Every
table reachable through the public constructors and operations satisfies
this. -/
def LengthInv (m : HashMap K V) : Prop :=
  m.length = live_count m.buckets

/-- Concrete four-step run on an 8-slot table with load factor `0.75` and the
identity hash: insert key 0, insert key 8 (collides into the next slot),
remove key 0 (leaving a tombstone at slot 0), then insert key 8 again. -/
def c1_run : Option (Option Nat × HashMap Nat Nat) :=
  (insert_gas id 1 (with_exact_capacity 8 (mkRat 3 4)) 0 10).bind fun r1 =>
  (insert_gas id 1 r1.2 8 20).bind fun r2 =>
  insert_gas id 1 (remove id r2.2 0).1 8 30

end OpenHashing

namespace ChainingHashing

/-- The `HashMap` struct of `chaining_hashing.rs`.  A bucket's
`Option<Entry>` with its chain of `next` links is an inductively defined
singly linked list, embedded as `List (K × V)` with `[]` for `None`. -/
structure HashMap (K V : Type) where
  buckets : List (List (K × V))
  length : Nat
  load_factor : ℚ
deriving Repr

variable {K V : Type} [DecidableEq K] [DecidableEq V]

/-- Private constructor `with_exact_capacity` of `chaining_hashing.rs`. -/
def with_exact_capacity (capacity : Nat) (load_factor : ℚ) : HashMap K V :=
  { buckets := List.replicate capacity []
    length := 0
    load_factor := load_factor }

/-- Constructor `new`: zero capacity, default load factor `0.4`. -/
def new : HashMap K V := with_exact_capacity 0 (mkRat 2 5)

/-- Constructor `with_capacity`. -/
def with_capacity (capacity : Nat) : HashMap K V :=
  with_exact_capacity (capacity * 8) (mkRat 2 5)

/-- Constructor `with_load_factor`. -/
def with_load_factor (load_factor : ℚ) : HashMap K V :=
  with_exact_capacity 0 load_factor

/-- Method `len`. -/
def len (m : HashMap K V) : Nat := m.length

/-- Method `is_empty`. -/
def is_empty (m : HashMap K V) : Bool := m.length == 0

/-- Method `fill_factor`. -/
def fill_factor (m : HashMap K V) : ℚ :=
  if m.buckets.isEmpty then 0 else mkRat m.length m.buckets.length

/-- Method `clear`. -/
def clear (m : HashMap K V) : HashMap K V :=
  { m with length := 0, buckets := m.buckets.map (fun _ => []) }

/-- Method `get`: short-circuit on the empty table, then walk the chain at
the hashed bucket comparing keys. -/
def get (hash : K → Nat) (m : HashMap K V) (key : K) : Option V :=
  if is_empty m then Option.none
  else
    match m.buckets.get? (hash key % m.buckets.length) with
    | some chain => (chain.find? (fun e => e.1 == key)).map (fun e => e.2)
    | Option.none => Option.none

/-- Method `get_mut`: the same chain walk as `get` (the Rust code differs
only in returning a mutable borrow). -/
def get_mut (hash : K → Nat) (m : HashMap K V) (key : K) : Option V :=
  if is_empty m then Option.none
  else
    match m.buckets.get? (hash key % m.buckets.length) with
    | some chain => (chain.find? (fun e => e.1 == key)).map (fun e => e.2)
    | Option.none => Option.none

/-- The chain surgery of `remove`: drop the first entry carrying the key and
re-link the rest, whether it is the head, in the middle, or the sole
entry. -/
def remove_chain (key : K) : List (K × V) → List (K × V) × Option V
  | [] => ([], Option.none)
  | e :: rest =>
      if e.1 = key then (rest, some e.2)
      else
        let r := remove_chain key rest
        (e :: r.1, r.2)

/-- Method `remove`. -/
def remove (hash : K → Nat) (m : HashMap K V) (key : K) : HashMap K V × Option V :=
  if is_empty m then (m, Option.none)
  else
    match m.buckets.get? (hash key % m.buckets.length) with
    | some chain =>
        match (remove_chain key chain).2 with
        | some v =>
            ({ m with
                buckets := m.buckets.set (hash key % m.buckets.length)
                  (remove_chain key chain).1
                length := m.length - 1 }, some v)
        | Option.none => (m, Option.none)
    | Option.none => (m, Option.none)

/-- The placement step of `insert`: prepend a fresh entry as the new chain
head of the hashed bucket and bump the length; an out-of-bounds index is the
`unreachable!` panic. -/
def place (hash : K → Nat) (m : HashMap K V) (key : K) (value : V) :
    Option (HashMap K V) :=
  match m.buckets.get? (hash key % m.buckets.length) with
  | some chain =>
      some { m with
              buckets := m.buckets.set (hash key % m.buckets.length)
                ((key, value) :: chain)
              length := m.length + 1 }
  | Option.none => Option.none

/-- All live entries, in bucket order and chain order (head first); the
iteration order of `rehash`. -/
def entries (m : HashMap K V) : List (K × V) := m.buckets.flatten

/-- The lazy 64-bucket allocation at the top of `insert`. -/
def lazy_alloc (m : HashMap K V) : HashMap K V :=
  if m.buckets.isEmpty then { m with buckets := List.replicate 64 [] } else m

/-- The body of `insert`, abstracted over the `rehash` call: lazily allocate
64 buckets, rehash when `fill_factor() >= load_factor`, remove any existing
entry for the key, then prepend the fresh entry. -/
def insert_step (hash : K → Nat) (rehashFn : HashMap K V → Option (HashMap K V))
    (m : HashMap K V) (key : K) (value : V) : Option (Option V × HashMap K V) :=
  (if (lazy_alloc m).load_factor ≤ fill_factor (lazy_alloc m)
    then rehashFn (lazy_alloc m) else some (lazy_alloc m)).bind fun m2 =>
    (place hash (remove hash m2 key).1 key value).map fun m3 =>
      ((remove hash m2 key).2, m3)

/-- The body of `rehash`, abstracted over the recursive `insert`: build a
fresh table of double capacity and re-insert every entry in iteration
order. -/
def rehash_step (insertFn : HashMap K V → K → V → Option (Option V × HashMap K V))
    (m : HashMap K V) : Option (HashMap K V) :=
  (entries m).foldl
    (fun acc e => acc.bind fun t => (insertFn t e.1 e.2).map (fun r => r.2))
    (some (with_exact_capacity (m.buckets.length * 2) m.load_factor))

/-- Method `insert` with an explicit rehash-recursion budget. -/
def insert_gas (hash : K → Nat) :
    Nat → HashMap K V → K → V → Option (Option V × HashMap K V)
  | 0, _, _, _ => Option.none
  | gas + 1, m, key, value =>
      insert_step hash (rehash_step (insert_gas hash gas)) m key value

/-- Method `rehash` with an explicit recursion budget for its inserts. -/
def rehash_gas (hash : K → Nat) (gas : Nat) (m : HashMap K V) : Option (HashMap K V) :=
  rehash_step (insert_gas hash gas) m

/-- Well-formedness of a chaining table: the stored length counts the
entries, keys are unique among live entries, and every entry sits in the
bucket its hash selects.  Every table reachable through the public
constructors and operations satisfies this. -/
def WF (hash : K → Nat) (m : HashMap K V) : Prop :=
  m.length = (entries m).length ∧
  ((entries m).map Prod.fst).Nodup ∧
  ∀ i chain, m.buckets.get? i = some chain →
    ∀ e ∈ chain, hash e.1 % m.buckets.length = i

end ChainingHashing

namespace CuckooHashing

/-- The `HashMap` struct of `cuckoo_hashing.rs`.  The two randomly seeded
`DefaultHasher`s are modelled by stored seeds `hasher_a` / `hasher_b` to be
fed to a hash family, and `rng_ctr` is the cursor of the modelled
`thread_rng` stream. -/
structure HashMap (K V : Type) where
  buckets : List (Option (K × V))
  length : Nat
  hasher_a : Nat
  hasher_b : Nat
  rng_ctr : Nat
  load_factor : ℚ
deriving Repr

variable {K V : Type} [DecidableEq K] [DecidableEq V]

/-- Private constructor `with_exact_capacity` of `cuckoo_hashing.rs`: draws
two fresh seeds from the randomness stream. -/
def with_exact_capacity (supply : Nat → Nat) (ctr : Nat) (capacity : Nat)
    (load_factor : ℚ) : HashMap K V :=
  { buckets := List.replicate capacity Option.none
    length := 0
    hasher_a := supply ctr
    hasher_b := supply (ctr + 1)
    rng_ctr := ctr + 2
    load_factor := load_factor }

/-- Constructor `new`. -/
def new (supply : Nat → Nat) (ctr : Nat) : HashMap K V :=
  with_exact_capacity supply ctr 0 (mkRat 2 5)

/-- Constructor `with_capacity`. -/
def with_capacity (supply : Nat → Nat) (ctr : Nat) (capacity : Nat) : HashMap K V :=
  with_exact_capacity supply ctr (capacity * 8 * 2) (mkRat 2 5)

/-- Constructor `with_load_factor`. -/
def with_load_factor (supply : Nat → Nat) (ctr : Nat) (load_factor : ℚ) : HashMap K V :=
  with_exact_capacity supply ctr 0 load_factor

/-- Method `len`. -/
def len (m : HashMap K V) : Nat := m.length

/-- Method `is_empty`. -/
def is_empty (m : HashMap K V) : Bool := m.length == 0

/-- Method `fill_factor`. -/
def fill_factor (m : HashMap K V) : ℚ :=
  if m.buckets.isEmpty then 0 else mkRat m.length m.buckets.length

/-- Method `clear`. -/
def clear (m : HashMap K V) : HashMap K V :=
  { m with length := 0, buckets := m.buckets.map (fun _ => Option.none) }

/-- Outcome of the displacement loop of `insert`: either the pending entry
was placed in an empty slot, or the iteration bound was exhausted with an
entry still in hand. -/
inductive KickResult (K V : Type) where
  | placed (buckets_a buckets_b : List (Option (K × V))) : KickResult K V
  | cycled (buckets_a buckets_b : List (Option (K × V))) (pending : K × V) : KickResult K V
deriving Repr, DecidableEq

/-- The displacement loop of `insert` (`for _ in 0..self.length`): recompute
both candidate slots of the entry in hand, place it into an empty one, or
evict the occupant of table A or table B alternately (the `fill_a` flag).
An out-of-bounds candidate index is the `unreachable!` panic. -/
def kick_loop (fam : Nat → K → Nat) (seed_a seed_b : Nat) :
    Nat → List (Option (K × V)) → List (Option (K × V)) → K × V → Bool →
    Option (KickResult K V)
  | 0, bas, bbs, e, _ => some (KickResult.cycled bas bbs e)
  | fuel + 1, bas, bbs, e, fill_a =>
      match bas.get? (fam seed_a e.1 % bas.length), bbs.get? (fam seed_b e.1 % bbs.length) with
      | some sa, some sb =>
          match sa, sb with
          | Option.none, _ =>
              some (KickResult.placed (bas.set (fam seed_a e.1 % bas.length) (some e)) bbs)
          | _, Option.none =>
              some (KickResult.placed bas (bbs.set (fam seed_b e.1 % bbs.length) (some e)))
          | some ea, some _ =>
              if fill_a then
                kick_loop fam seed_a seed_b fuel
                  (bas.set (fam seed_a e.1 % bas.length) (some e)) bbs ea false
              else
                match bbs.get? (fam seed_b e.1 % bbs.length) with
                | some (some eb) =>
                    kick_loop fam seed_a seed_b fuel bas
                      (bbs.set (fam seed_b e.1 % bbs.length) (some e)) eb true
                | _ => Option.none
      | _, _ => Option.none

/-- The lazy 64-slot allocation at the top of `insert`. -/
def lazy_alloc (m : HashMap K V) : HashMap K V :=
  if m.buckets.isEmpty then { m with buckets := List.replicate 64 Option.none } else m

/-- Table A: the first half of the bucket array (`split_at(len / 2)`). -/
def table_a (m : HashMap K V) : List (Option (K × V)) :=
  m.buckets.take (m.buckets.length / 2)

/-- Table B: the second half of the bucket array. -/
def table_b (m : HashMap K V) : List (Option (K × V)) :=
  m.buckets.drop (m.buckets.length / 2)

/-- The candidate index of a key in table A. -/
def index_a (fam : Nat → K → Nat) (m : HashMap K V) (key : K) : Nat :=
  fam m.hasher_a key % (table_a m).length

/-- The candidate index of a key in table B. -/
def index_b (fam : Nat → K → Nat) (m : HashMap K V) (key : K) : Nat :=
  fam m.hasher_b key % (table_b m).length

/-- The body of `insert`, abstracted over the `rehash` call and the
recursive retry after a cycle: lazily allocate 64 slots, rehash-double over
the load factor, then resolve the two candidate slots in the source's
priority order (overwrite in A, overwrite in B, empty A, empty B, kick). -/
def insert_step (fam : Nat → K → Nat)
    (rehashFn : HashMap K V → Nat → Option (HashMap K V))
    (retryFn : HashMap K V → K → V → Option (Option V × HashMap K V))
    (m : HashMap K V) (key : K) (value : V) : Option (Option V × HashMap K V) :=
  (if (lazy_alloc m).load_factor ≤ fill_factor (lazy_alloc m)
    then rehashFn (lazy_alloc m) 2 else some (lazy_alloc m)).bind fun m2 =>
    match (table_a m2).get? (index_a fam m2 key), (table_b m2).get? (index_b fam m2 key) with
    | some sa, some sb =>
        match sa, sb with
        | some ea, some eb =>
            if ea.1 = key then
              some (some ea.2,
                { m2 with
                    buckets := (table_a m2).set (index_a fam m2 key) (some (ea.1, value)) ++ table_b m2 })
            else if eb.1 = key then
              some (some eb.2,
                { m2 with
                    buckets := table_a m2 ++ (table_b m2).set (index_b fam m2 key) (some (eb.1, value)) })
            else
              (kick_loop fam m2.hasher_a m2.hasher_b m2.length
                  ((table_a m2).set (index_a fam m2 key) (some (key, value)))
                  (table_b m2) ea false).bind
                fun k =>
                  match k with
                  | KickResult.placed bas2 bbs2 =>
                      some (Option.none,
                        { m2 with buckets := bas2 ++ bbs2, length := m2.length + 1 })
                  | KickResult.cycled bas2 bbs2 pending =>
                      (rehashFn { m2 with buckets := bas2 ++ bbs2 } 1).bind fun m3 =>
                        retryFn m3 pending.1 pending.2
        | some ea, Option.none =>
            if ea.1 = key then
              some (some ea.2,
                { m2 with
                    buckets := (table_a m2).set (index_a fam m2 key) (some (ea.1, value)) ++ table_b m2 })
            else
              some (Option.none,
                { m2 with
                    buckets := table_a m2 ++ (table_b m2).set (index_b fam m2 key) (some (key, value)),
                    length := m2.length + 1 })
        | Option.none, some eb =>
            if eb.1 = key then
              some (some eb.2,
                { m2 with
                    buckets := table_a m2 ++ (table_b m2).set (index_b fam m2 key) (some (eb.1, value)) })
            else
              some (Option.none,
                { m2 with
                    buckets := (table_a m2).set (index_a fam m2 key) (some (key, value)) ++ table_b m2,
                    length := m2.length + 1 })
        | Option.none, Option.none =>
            some (Option.none,
              { m2 with
                  buckets := (table_a m2).set (index_a fam m2 key) (some (key, value)) ++ table_b m2,
                  length := m2.length + 1 })
    | _, _ => Option.none

/-- The body of `rehash`, abstracted over the recursive `insert`: build a
fresh table of `resize_factor` times the capacity with two freshly drawn
hasher seeds, and re-insert every live entry in slot order. -/
def rehash_step (supply : Nat → Nat)
    (insertFn : HashMap K V → K → V → Option (Option V × HashMap K V))
    (m : HashMap K V) (resize_factor : Nat) : Option (HashMap K V) :=
  m.buckets.foldl
    (fun acc s =>
      match s with
      | some e => acc.bind fun t => (insertFn t e.1 e.2).map (fun r => r.2)
      | Option.none => acc)
    (some (with_exact_capacity supply m.rng_ctr (m.buckets.length * resize_factor)
      m.load_factor))

/-- Method `insert` with an explicit rehash-recursion budget. -/
def insert_gas (fam : Nat → K → Nat) (supply : Nat → Nat) :
    Nat → HashMap K V → K → V → Option (Option V × HashMap K V)
  | 0, _, _, _ => Option.none
  | gas + 1, m, key, value =>
      insert_step fam
        (fun t r => rehash_step supply (insert_gas fam supply gas) t r)
        (insert_gas fam supply gas) m key value

/-- Method `rehash` with an explicit recursion budget for its inserts. -/
def rehash_gas (fam : Nat → K → Nat) (supply : Nat → Nat) (gas : Nat)
    (m : HashMap K V) (resize_factor : Nat) : Option (HashMap K V) :=
  rehash_step supply (insert_gas fam supply gas) m resize_factor

/-- A concrete four-slot table whose two halves are each half full, used to
exercise the displacement loop on a genuine cycle. -/
def c5_m : HashMap Nat Nat :=
  ⟨[some (10, 1), Option.none, some (20, 2), Option.none], 2, 1, 1, 2, mkRat 1 1⟩

end CuckooHashing

namespace QuadCuckooHashing

/-- The `HashMap` struct of `quad_cuckoo_hashing.rs`: a vector of buckets of
`bucket_size` slots each, and `hasher_amount` randomly seeded hashers
(modelled by stored seeds and the `rng_ctr` cursor of the randomness
stream). -/
structure HashMap (K V : Type) where
  buckets : List (List (Option (K × V)))
  bucket_size : Nat
  hasher_vec : List Nat
  load_factor : ℚ
  length : Nat
  rng_ctr : Nat
deriving Repr

variable {K V : Type} [DecidableEq K] [DecidableEq V]

/-- Private constructor `with_exact_capacity` of `quad_cuckoo_hashing.rs`
with its three assertions; an assertion failure (including the
division-by-zero panic of `%` on a zero bucket size or hasher amount) is
`Option.none`. -/
def with_exact_capacity (supply : Nat → Nat) (ctr : Nat)
    (capacity bucket_size hasher_amount : Nat) (load_factor : ℚ) :
    Option (HashMap K V) :=
  if capacity = 0 ∨ bucket_size * hasher_amount ≤ capacity then
    if bucket_size ≠ 0 ∧ capacity % bucket_size = 0 then
      if hasher_amount ≠ 0 ∧ capacity % hasher_amount = 0 then
        some
          { buckets := List.replicate (capacity / bucket_size)
              (List.replicate bucket_size Option.none)
            bucket_size := bucket_size
            hasher_vec := (List.range hasher_amount).map (fun i => supply (ctr + i))
            load_factor := load_factor
            length := 0
            rng_ctr := ctr + hasher_amount }
      else Option.none
    else Option.none
  else Option.none

/-- Constructor `new`: defaults of 4 slots per bucket, 4 hashers, load
factor `0.8`. -/
def new (supply : Nat → Nat) (ctr : Nat) : Option (HashMap K V) :=
  with_exact_capacity supply ctr 0 4 4 (mkRat 4 5)

/-- Constructor `with_capacity`. -/
def with_capacity (supply : Nat → Nat) (ctr : Nat) (capacity : Nat) :
    Option (HashMap K V) :=
  with_exact_capacity supply ctr (capacity * 16) 4 4 (mkRat 4 5)

/-- Constructor `with_load_factor`. -/
def with_load_factor (supply : Nat → Nat) (ctr : Nat) (fill_factor : ℚ) :
    Option (HashMap K V) :=
  with_exact_capacity supply ctr 0 4 4 fill_factor

/-- Method `len`. -/
def len (m : HashMap K V) : Nat := m.length

/-- Method `is_empty`. -/
def is_empty (m : HashMap K V) : Bool := m.length == 0

/-- Method `fill_factor`:
`length as f64 / (buckets.len() * buckets[0].len()) as f64`. -/
def fill_factor (m : HashMap K V) : ℚ :=
  if m.buckets.isEmpty then 0
  else mkRat m.length (m.buckets.length * (m.buckets.getD 0 []).length)

/-- Method `clear`. -/
def clear (m : HashMap K V) : HashMap K V :=
  { m with length := 0, buckets := m.buckets.map (fun b => b.map (fun _ => Option.none)) }

/-- The candidate bucket indices of a key: the bucket array is cut into
`hasher_amount` chunks of `chunk_size` buckets
(`chunks_exact(chunk_size).zip(hasher_vec)`), and hasher `i` addresses
bucket `hash_i(key) % chunk_size` of chunk `i`. -/
def candidate_indices (fam : Nat → K → Nat) (m : HashMap K V) (key : K) : List Nat :=
  let chunk_size := m.buckets.length / m.hasher_vec.length
  if chunk_size = 0 then []
  else
    (List.range (min (m.buckets.length / chunk_size) m.hasher_vec.length)).map
      (fun i => i * chunk_size + fam (m.hasher_vec.getD i 0) key % chunk_size)

/-- Overwrite slot `j` of bucket `c`. -/
def set_slot (bks : List (List (Option (K × V)))) (c j : Nat) (s : Option (K × V)) :
    List (List (Option (K × V))) :=
  bks.set c ((bks.getD c []).set j s)

/-- The duplicate scan of `insert`: the first slot among the candidate
buckets (in hasher order, slots in order) occupied by the key. -/
def find_dup (key : K) (bks : List (List (Option (K × V)))) (cs : List Nat) :
    Option (Nat × Nat × V) :=
  cs.findSome? fun c =>
    (bks.getD c []).enum.findSome? fun js =>
      match js.2 with
      | some e => if e.1 = key then some (c, js.1, e.2) else Option.none
      | Option.none => Option.none

/-- The empty-slot scan of `insert`: the first empty slot among the
candidate buckets. -/
def find_empty (bks : List (List (Option (K × V)))) (cs : List Nat) :
    Option (Nat × Nat) :=
  cs.findSome? fun c =>
    (bks.getD c []).enum.findSome? fun js =>
      match js.2 with
      | Option.none => some (c, js.1)
      | some _ => Option.none

/-- All occupied candidate slots, the population sampled by the random
eviction. -/
def occupied_slots (bks : List (List (Option (K × V)))) (cs : List Nat) :
    List (Nat × Nat × (K × V)) :=
  cs.flatMap fun c =>
    (bks.getD c []).enum.filterMap fun js => js.2.map (fun e => (c, js.1, e))

/-- Outcome of the bounded placement loop of `insert`. -/
inductive LoopResult (K V : Type) where
  | done (old : Option V) (m : HashMap K V) : LoopResult K V
  | exhausted (m : HashMap K V) (pending : K × V) : LoopResult K V

/-- The placement loop of `insert` (`for _ in 0..self.length + 1`): replace
a duplicate, else fill an empty candidate slot, else evict a random occupied
candidate slot (`choose`, modelled by the `pick` oracle indexing the
occupied-slot list) and continue with the evicted entry. -/
def insert_loop (fam : Nat → K → Nat) (pick : Nat → Nat) :
    Nat → HashMap K V → K → V → LoopResult K V
  | 0, m, key, value => LoopResult.exhausted m (key, value)
  | fuel + 1, m, key, value =>
      match find_dup key m.buckets (candidate_indices fam m key) with
      | some cjv =>
          LoopResult.done (some cjv.2.2)
            { m with buckets := set_slot m.buckets cjv.1 cjv.2.1 (some (key, value)) }
      | Option.none =>
          match find_empty m.buckets (candidate_indices fam m key) with
          | some cj =>
              LoopResult.done Option.none
                { m with
                    buckets := set_slot m.buckets cj.1 cj.2 (some (key, value))
                    length := m.length + 1 }
          | Option.none =>
              match (occupied_slots m.buckets (candidate_indices fam m key)).get?
                  (pick (occupied_slots m.buckets (candidate_indices fam m key)).length %
                    (occupied_slots m.buckets (candidate_indices fam m key)).length) with
              | some cje =>
                  insert_loop fam pick fuel
                    { m with buckets := set_slot m.buckets cje.1 cje.2.1 (some (key, value)) }
                    cje.2.2.1 cje.2.2.2
              | Option.none => insert_loop fam pick fuel m key value

/-- The body of `insert`, abstracted over `rehash` and the recursive retry:
lazily allocate 64 buckets of `bucket_size` slots, rehash-double over the
load factor, then run the bounded placement loop; on exhaustion rehash at
the same capacity and retry the pending entry.  A zero chunk size is the
`chunks_exact(0)` panic. -/
def lazy_alloc (m : HashMap K V) : HashMap K V :=
  if m.buckets.isEmpty
    then { m with buckets := List.replicate 64 (List.replicate m.bucket_size Option.none) }
    else m

def insert_step (fam : Nat → K → Nat) (pick : Nat → Nat)
    (rehashFn : HashMap K V → Nat → Option (HashMap K V))
    (retryFn : HashMap K V → K → V → Option (Option V × HashMap K V))
    (m : HashMap K V) (key : K) (value : V) : Option (Option V × HashMap K V) :=
  (if (lazy_alloc m).load_factor ≤ fill_factor (lazy_alloc m)
    then rehashFn (lazy_alloc m) 2 else some (lazy_alloc m)).bind fun m2 =>
    if m2.buckets.length / m2.hasher_vec.length = 0 then Option.none
    else
      match insert_loop fam pick (m2.length + 1) m2 key value with
      | LoopResult.done old m3 => some (old, m3)
      | LoopResult.exhausted m3 pending =>
          (rehashFn m3 1).bind fun m4 => retryFn m4 pending.1 pending.2

/-- The body of `rehash`, abstracted over the recursive `insert`: build a
fresh table of `resize_factor` times the capacity with freshly drawn hasher
seeds and the same shape, and re-insert every live entry. -/
def rehash_step (supply : Nat → Nat)
    (insertFn : HashMap K V → K → V → Option (Option V × HashMap K V))
    (m : HashMap K V) (resize_factor : Nat) : Option (HashMap K V) :=
  (with_exact_capacity supply m.rng_ctr
      (m.buckets.length * m.bucket_size * resize_factor) m.bucket_size
      m.hasher_vec.length m.load_factor).bind fun t0 =>
    m.buckets.flatten.foldl
      (fun acc s =>
        match s with
        | some e => acc.bind fun t => (insertFn t e.1 e.2).map (fun r => r.2)
        | Option.none => acc)
      (some t0)

/-- Method `insert` with an explicit rehash-recursion budget. -/
def insert_gas (fam : Nat → K → Nat) (pick : Nat → Nat) (supply : Nat → Nat) :
    Nat → HashMap K V → K → V → Option (Option V × HashMap K V)
  | 0, _, _, _ => Option.none
  | gas + 1, m, key, value =>
      insert_step fam pick
        (fun t r => rehash_step supply (insert_gas fam pick supply gas) t r)
        (insert_gas fam pick supply gas) m key value

/-- The total number of slots of the table. -/
def total_slots (m : HashMap K V) : Nat := (m.buckets.map List.length).sum

/-- Concrete first insert into a table built by `new` (the lazily allocating
path), with an arbitrary concrete hash family and randomness. -/
def c6_run : Option (Option Nat × HashMap Nat Nat) :=
  (new (fun n => n) 0).bind fun m0 =>
    insert_gas (fun s k => s + k) (fun _ => 0) (fun n => n) 1 m0 1 10

end QuadCuckooHashing

namespace ConcurrentOptimized

/-- The `HashMap` struct of `chaining_hashing_concurrent_optimized.rs`: a
fixed array of lock-guarded chains (the locks and the `Arc` sharing have no
observable sequential content, so a bucket is its chain). -/
structure HashMap (K V : Type) where
  buckets : List (List (K × V))
deriving Repr

variable {K V : Type}

/-- Private constructor `with_exact_capacity`. -/
def with_exact_capacity (capacity : Nat) : HashMap K V :=
  { buckets := List.replicate capacity [] }

/-- Public constructor `with_capacity`: asserts a strictly positive capacity
(the assertion failure is `Option.none`), then sizes the array to eight
times the request. -/
def with_capacity (capacity : Nat) : Option (HashMap K V) :=
  if capacity > 0 then some (with_exact_capacity (capacity * 8)) else Option.none

end ConcurrentOptimized

namespace OpenHashing

/-- The slot-wise effect of a removal: a slot is unchanged, or it held the
removed key and became a tombstone. -/
def tombed (key : K) (b₁ b₂ : Bucket K V) : Prop :=
  b₂ = b₁ ∨ ∃ v, b₁ = Bucket.entry key v ∧ b₂ = Bucket.tomb

end OpenHashing

namespace ChainingHashing

variable {K V : Type} [DecidableEq K] [DecidableEq V]

/-- First-match lookup in an association list; the specification of `get`
over `entries`. -/
def assoc_lookup (es : List (K × V)) (key : K) : Option V :=
  (es.find? (fun e => e.1 == key)).map (fun e => e.2)

/-- Specification of an insert function: on well-formed tables it succeeds
as an upsert, preserves well-formedness and every other key's mapping, and
grows the length exactly when the key was absent. -/
def InsertOK (hash : K → Nat)
    (ins : HashMap K V → K → V → Option (Option V × HashMap K V)) : Prop :=
  ∀ m key value old m', WF hash m → ins m key value = some (old, m') →
    WF hash m' ∧
    old = get hash m key ∧
    get hash m' key = some value ∧
    (∀ k', k' ≠ key → get hash m' k' = get hash m k') ∧
    m'.length = m.length + (if (get hash m key).isSome then 0 else 1) ∧
    m'.load_factor = m.load_factor ∧
    m'.buckets ≠ []

/-- Specification of a rehash function: on well-formed non-empty tables it
preserves every key's mapping, the length, and well-formedness. -/
def RehashOK (hash : K → Nat) (reh : HashMap K V → Option (HashMap K V)) : Prop :=
  ∀ m m', WF hash m → m.buckets ≠ [] → reh m = some m' →
    WF hash m' ∧
    (∀ key, get hash m' key = get hash m key) ∧
    m'.length = m.length ∧
    m'.load_factor = m.load_factor ∧
    m'.buckets ≠ []

end ChainingHashing

/-
Theorems.  Each claim Cn of the specification gets exactly one main theorem,
preceded by helper lemmas where needed.
-/

/-- The helper `qadd` is rational addition. -/
theorem qadd_eq (a b : ℚ) : qadd a b = a + b := (Rat.add_def' a b).symm

namespace OpenHashing

variable {K V : Type} [DecidableEq K] [DecidableEq V]

/-- C1 (code bug): on an 8-slot table with load factor 0.75 and the identity
hash, insert key 0 at slot 0, insert key 8 (which collides at slot 0 and
probes to slot 1), remove key 0 (slot 0 becomes a tombstone), then insert
key 8 again.  The probe for key 8 starts at slot 0, takes the tombstone
immediately and never rules out the occupied duplicate at slot 1: the insert
returns nothing instead of the old value 20, the length becomes 2, and key 8
occupies two live slots, violating the specified overwrite behaviour and the
key-uniqueness invariant. -/
theorem c1_insert_uses_tomb_before_ruling_out_duplicate :
    (c1_run.map fun r =>
        (r.1, r.2.length, count_key 8 r.2.buckets, get id r.2 8)) =
      some (Option.none, 2, 2, some 30) := by decide

/-- `clear` rebuilds the bucket array as all-`None`. -/
theorem clear_buckets (m : HashMap K V) :
    (clear m).buckets = List.replicate m.buckets.length Bucket.none := by
  simp [clear]

/-- C9 (confirmed): `clear` zeroes the length and empties every slot but
leaves `tomb_count` untouched, so the tombstone fraction that `insert` adds
into its rehash trigger can be positive although no tombstone slot exists. -/
theorem c9_clear_leaves_tomb_count (m : HashMap K V) :
    (clear m).length = 0 ∧
    (clear m).buckets = List.replicate m.buckets.length Bucket.none ∧
    (clear m).tomb_count = m.tomb_count ∧
    count_tombs (clear m).buckets = 0 ∧
    (0 < m.tomb_count → m.buckets ≠ [] → 0 < tomb_factor (clear m)) := by
  refine ⟨rfl, clear_buckets m, rfl, ?_, ?_⟩
  · rw [clear_buckets]
    simp [count_tombs, List.countP_eq_zero]
  · intro ht hb
    have hlen : (clear m).buckets.length = m.buckets.length := by
      simp [clear]
    have hpos : 0 < m.buckets.length := List.length_pos.mpr hb
    have hne : ¬ (clear m).buckets.isEmpty := by
      rw [List.isEmpty_iff_length_eq_zero, hlen]
      omega
    rw [tomb_factor, if_neg hne, Rat.mkRat_eq_div]
    have h1 : (0 : ℚ) < ((clear m).tomb_count : ℚ) := by
      exact_mod_cast ht
    have h2 : (0 : ℚ) < ((clear m).buckets.length : ℚ) := by
      rw [hlen]; exact_mod_cast hpos
    exact div_pos h1 h2

/-- Witness for C9: a table holding a single stale tombstone. -/
theorem c9_witness :
    (clear (⟨[Bucket.tomb], 0, 1, mkRat 2 5⟩ : HashMap Nat Nat)).tomb_count = 1 ∧
    count_tombs (clear (⟨[Bucket.tomb], 0, 1, mkRat 2 5⟩ : HashMap Nat Nat)).buckets = 0 ∧
    0 < tomb_factor (clear (⟨[Bucket.tomb], 0, 1, mkRat 2 5⟩ : HashMap Nat Nat)) := by
  have h := c9_clear_leaves_tomb_count (⟨[Bucket.tomb], 0, 1, mkRat 2 5⟩ : HashMap Nat Nat)
  exact ⟨h.2.2.1, h.2.2.2.1, h.2.2.2.2 (by decide) (by decide)⟩

/-- The probe sequence is the rotation of the bucket array at the hash
index. -/
theorem probe_seq_eq_rotate (hash : K → Nat) (m : HashMap K V) (key : K)
    (h : m.buckets ≠ []) :
    probe_seq hash m key = m.buckets.rotate (hash key % m.buckets.length) := by
  have hlt : hash key % m.buckets.length < m.buckets.length :=
    Nat.mod_lt _ (List.length_pos.mpr h)
  rw [probe_seq, List.rotate_eq_drop_append_take (Nat.le_of_lt hlt)]

/-- The removal scan rebuilds a list of the same length. -/
theorem remove_scan_length (key : K) (l : List (Bucket K V)) :
    (remove_scan key l).1.length = l.length := by
  induction l with
  | nil => rfl
  | cons b rest ih =>
      cases b with
      | none => simp [remove_scan]
      | tomb => simp [remove_scan, ih]
      | entry k v =>
          by_cases hk : k = key
          · simp [remove_scan, hk]
          · simp [remove_scan, hk, ih]

/-- Un-rotation preserves the length. -/
theorem unrot_length (index : Nat) (l : List α) : (unrot index l).length = l.length := by
  simp only [unrot, List.length_append, List.length_drop, List.length_take]
  omega

/-- C10 (confirmed): on a non-empty bucket array all three scans walk the
probe sequence, which lists every slot exactly once (it is a rotation of the
bucket array, so a permutation of the same length); the embedded scans are
total functions of that one wrap, with no hypothesis that any slot is
`None`. -/
theorem c10_lookup_scans_terminate (hash : K → Nat) (m : HashMap K V) (key : K)
    (h : m.buckets ≠ []) :
    (probe_seq hash m key).length = m.buckets.length ∧
    (probe_seq hash m key).Perm m.buckets ∧
    get hash m key =
      (if is_empty m then Option.none else scan_find key (probe_seq hash m key)) ∧
    get_mut hash m key = get hash m key ∧
    (remove hash m key).1.buckets.length = m.buckets.length := by
  have hp := probe_seq_eq_rotate hash m key h
  refine ⟨?_, ?_, rfl, rfl, ?_⟩
  · rw [hp, List.length_rotate]
  · rw [hp]; exact List.rotate_perm _ _
  · by_cases he : is_empty m
    · simp [remove, he]
    · simp only [remove, he, Bool.false_eq_true, if_false]
      rcases hr : (remove_scan key (probe_seq hash m key)).2 with _ | v
      · simp [hr]
      · simp only [hr]
        have h1 := unrot_length (hash key % m.buckets.length)
          (remove_scan key (probe_seq hash m key)).1
        have h2 := remove_scan_length key (probe_seq hash m key)
        have h3 : (probe_seq hash m key).length = m.buckets.length := by
          rw [hp, List.length_rotate]
        rw [h1, h2, h3]

/-- Witness for C10: a concrete two-slot table with every slot occupied or a
tombstone. -/
theorem c10_witness :
    ((⟨[Bucket.entry 0 5, Bucket.tomb], 1, 1, mkRat 2 5⟩ : HashMap Nat Nat).buckets ≠ []) ∧
    (probe_seq id (⟨[Bucket.entry 0 5, Bucket.tomb], 1, 1, mkRat 2 5⟩ : HashMap Nat Nat) 3).length = 2 ∧
    get id (⟨[Bucket.entry 0 5, Bucket.tomb], 1, 1, mkRat 2 5⟩ : HashMap Nat Nat) 3 =
      Option.none := by
  refine ⟨by decide, ?_, by decide⟩
  have h := c10_lookup_scans_terminate id
    (⟨[Bucket.entry 0 5, Bucket.tomb], 1, 1, mkRat 2 5⟩ : HashMap Nat Nat) 3 (by decide)
  exact h.1

end OpenHashing

namespace OpenHashing

variable {K V : Type} [DecidableEq K] [DecidableEq V]

/-- Scan equation: the empty probe run finds nothing. -/
theorem scan_find_nil (key : K) : scan_find key ([] : List (Bucket K V)) = Option.none := rfl

/-- Scan equation: an empty slot stops the scan with no result. -/
theorem scan_find_cons_none (key : K) (l : List (Bucket K V)) :
    scan_find key (Bucket.none :: l) = Option.none := rfl

/-- Scan equation: a tombstone never stops the scan. -/
theorem scan_find_cons_tomb (key : K) (l : List (Bucket K V)) :
    scan_find key (Bucket.tomb :: l) = scan_find key l := by
  simp [scan_find, List.takeWhile_cons, Bucket.is_vacant, List.findSome?_cons, bucket_hit]

/-- Scan equation: an occupied slot is a hit exactly on a key match. -/
theorem scan_find_cons_entry (key k : K) (v : V) (l : List (Bucket K V)) :
    scan_find key (Bucket.entry k v :: l) =
      if k = key then some v else scan_find key l := by
  by_cases hk : k = key <;>
    simp [scan_find, List.takeWhile_cons, Bucket.is_vacant, List.findSome?_cons,
      bucket_hit, hk]

/-- A successful scan finds an occupied slot of the scanned run. -/
theorem scan_find_mem {key : K} {v : V} :
    ∀ {l : List (Bucket K V)}, scan_find key l = some v → Bucket.entry key v ∈ l := by
  intro l
  induction l with
  | nil => intro h; simp [scan_find_nil] at h
  | cons b rest ih =>
      intro h
      cases b with
      | none => simp [scan_find_cons_none] at h
      | tomb =>
          rw [scan_find_cons_tomb] at h
          exact List.mem_cons_of_mem _ (ih h)
      | entry k v' =>
          rw [scan_find_cons_entry] at h
          by_cases hk : k = key
          · rw [if_pos hk] at h
            cases h
            subst hk
            exact List.mem_cons_self _ _
          · rw [if_neg hk] at h
            exact List.mem_cons_of_mem _ (ih h)

/-- Every list is `tombed`-related to itself. -/
theorem tombed_refl (key : K) (l : List (Bucket K V)) : List.Forall₂ (tombed key) l l :=
  List.forall₂_same.mpr (fun _ _ => Or.inl rfl)

/-- Turning slots of the removed key into tombstones does not change the scan
of any other key. -/
theorem scan_find_tombed {key k' : K} (hne : k' ≠ key) :
    ∀ {l₁ l₂ : List (Bucket K V)}, List.Forall₂ (tombed key) l₁ l₂ →
      scan_find k' l₂ = scan_find k' l₁ := by
  intro l₁ l₂ h
  induction h with
  | nil => rfl
  | cons hr _ ih =>
      rcases hr with rfl | ⟨v, rfl, rfl⟩
      · rename_i a l₁' l₂' _
        cases a with
        | none => rw [scan_find_cons_none, scan_find_cons_none]
        | tomb => rw [scan_find_cons_tomb, scan_find_cons_tomb, ih]
        | entry k v =>
            rw [scan_find_cons_entry, scan_find_cons_entry, ih]
      · rw [scan_find_cons_tomb, scan_find_cons_entry,
          if_neg (fun hkk => hne hkk.symm), ih]

/-- Equation of the removal scan on a tombstone. -/
theorem remove_scan_cons_tomb (key : K) (l : List (Bucket K V)) :
    remove_scan key (Bucket.tomb :: l) =
      (Bucket.tomb :: (remove_scan key l).1, (remove_scan key l).2) := rfl

/-- Equation of the removal scan on an occupied slot. -/
theorem remove_scan_cons_entry (key k : K) (v : V) (l : List (Bucket K V)) :
    remove_scan key (Bucket.entry k v :: l) =
      if k = key then (Bucket.tomb :: l, some v)
      else (Bucket.entry k v :: (remove_scan key l).1, (remove_scan key l).2) := by
  by_cases hk : k = key <;> simp [remove_scan, hk]

/-- A hit of the removal scan: the run splits at the first slot occupied by
the key, which becomes a `Tomb`; every earlier slot is neither empty nor
occupied by the key. -/
theorem remove_scan_some {key : K} {v : V} :
    ∀ {l : List (Bucket K V)}, (remove_scan key l).2 = some v →
      ∃ pre post, l = pre ++ Bucket.entry key v :: post ∧
        (remove_scan key l).1 = pre ++ Bucket.tomb :: post ∧
        ∀ b ∈ pre, b ≠ Bucket.none ∧ ∀ w, b ≠ Bucket.entry key w := by
  intro l
  induction l with
  | nil => intro h; simp [remove_scan] at h
  | cons b rest ih =>
      intro h
      cases b with
      | none => simp [remove_scan] at h
      | tomb =>
          rw [remove_scan_cons_tomb] at h
          obtain ⟨pre, post, hdec, hres, hpre⟩ := ih h
          refine ⟨Bucket.tomb :: pre, post, by rw [hdec]; rfl, ?_, ?_⟩
          · rw [remove_scan_cons_tomb, hres]; rfl
          · intro b hb
            rcases List.mem_cons.mp hb with rfl | hb'
            · exact ⟨by simp, fun w => by simp⟩
            · exact hpre b hb'
      | entry k v' =>
          rw [remove_scan_cons_entry] at h
          by_cases hk : k = key
          · rw [if_pos hk] at h
            simp only [] at h
            cases h
            subst hk
            exact ⟨[], rest, by simp, by rw [remove_scan_cons_entry]; simp, by simp⟩
          · rw [if_neg hk] at h
            simp only [] at h
            obtain ⟨pre, post, hdec, hres, hpre⟩ := ih h
            refine ⟨Bucket.entry k v' :: pre, post, by rw [hdec]; rfl, ?_, ?_⟩
            · rw [remove_scan_cons_entry, if_neg hk, hres]; rfl
            · intro b hb
              rcases List.mem_cons.mp hb with rfl | hb'
              · exact ⟨by simp, fun w => by simp [hk]⟩
              · exact hpre b hb'

/-- Un-rotating the probe sequence of the hash index recovers the bucket
array. -/
theorem unrot_rot (index : Nat) (l : List α) (h : index ≤ l.length) :
    unrot index (l.drop index ++ l.take index) = l := by
  have e1 : l.drop index ++ l.take index = l.rotate index :=
    (List.rotate_eq_drop_append_take h).symm
  rw [e1, unrot, List.length_rotate,
    ← List.rotate_eq_drop_append_take (by rw [List.length_rotate]; omega),
    List.rotate_rotate, Nat.add_sub_cancel' h, List.rotate_length]

/-- Rotating an un-rotated list at the same index recovers it. -/
theorem rot_unrot (index : Nat) (l : List α) (h : index ≤ l.length) :
    (unrot index l).drop index ++ (unrot index l).take index = l := by
  have e1 : unrot index l = l.rotate (l.length - index) := by
    rw [unrot, ← List.rotate_eq_drop_append_take (by omega)]
  rw [e1, ← List.rotate_eq_drop_append_take (by rw [List.length_rotate]; exact h),
    List.rotate_rotate, Nat.sub_add_cancel h, List.rotate_length]

/-- `Forall₂` is preserved by the probe rotation. -/
theorem forall₂_rot {α β : Type} {R : α → β → Prop} {l₁ : List α} {l₂ : List β}
    (index : Nat) (h : List.Forall₂ R l₁ l₂) :
    List.Forall₂ R (l₁.drop index ++ l₁.take index)
      (l₂.drop index ++ l₂.take index) :=
  List.rel_append (List.forall₂_drop index h) (List.forall₂_take index h)

/-- `Forall₂` is preserved by un-rotation. -/
theorem forall₂_unrot {α β : Type} {R : α → β → Prop} {l₁ : List α} {l₂ : List β}
    (index : Nat) (h : List.Forall₂ R l₁ l₂) :
    List.Forall₂ R (unrot index l₁) (unrot index l₂) := by
  rw [unrot, unrot, h.length_eq]
  exact List.rel_append (List.forall₂_drop _ h) (List.forall₂_take _ h)

/-- Two live entries with distinct keys make the live count at least two. -/
theorem two_le_live_count {l : List (Bucket K V)} {k₁ k₂ : K} {v₁ v₂ : V}
    (h₁ : Bucket.entry k₁ v₁ ∈ l) (h₂ : Bucket.entry k₂ v₂ ∈ l) (hne : k₁ ≠ k₂) :
    2 ≤ live_count l := by
  obtain ⟨s, t, rfl⟩ := List.append_of_mem h₁
  have hs : live_count (s ++ Bucket.entry k₁ v₁ :: t) =
      live_count s + (live_count t + 1) := by
    rw [live_count, List.countP_append, List.countP_cons_of_pos _ _ (by rfl)]
    rfl
  have h2' : Bucket.entry k₂ v₂ ∈ s ∨ Bucket.entry k₂ v₂ ∈ t := by
    rcases List.mem_append.mp h₂ with hs' | ht'
    · exact Or.inl hs'
    · rcases List.mem_cons.mp ht' with heq | ht''
      · injection heq with hk hv
        exact absurd hk.symm hne
      · exact Or.inr ht''
  rcases h2' with hmem | hmem
  · have : 0 < live_count s :=
      List.countP_pos_iff.mpr ⟨Bucket.entry k₂ v₂, hmem, by rfl⟩
    omega
  · have : 0 < live_count t :=
      List.countP_pos_iff.mpr ⟨Bucket.entry k₂ v₂, hmem, by rfl⟩
    omega

end OpenHashing

namespace OpenHashing

variable {K V : Type} [DecidableEq K] [DecidableEq V]

/-- The probe sequence in unfolded form. -/
theorem probe_seq_def (hash : K → Nat) (m : HashMap K V) (key : K) :
    probe_seq hash m key =
      m.buckets.drop (hash key % m.buckets.length) ++
        m.buckets.take (hash key % m.buckets.length) := rfl

/-- The probe sequence has the length of the bucket array. -/
theorem probe_seq_length (hash : K → Nat) (m : HashMap K V) (key : K) :
    (probe_seq hash m key).length = m.buckets.length := by
  rw [probe_seq_def]
  simp only [List.length_append, List.length_drop, List.length_take]
  omega

/-- C4 (confirmed): a successful `remove` turns exactly the key's occupied
slot into a tombstone (length down by one, tombstone count up by one); the
tombstone sits in the middle of the unchanged probe run, and the lookup of
every other key is unchanged, because the lookup scan stops only at `None`
slots and never at tombstones (last conjunct). -/
theorem c4_remove_tombstone_keeps_other_lookups
    (hash : K → Nat) (m : HashMap K V) (key : K) (v : V) (m' : HashMap K V)
    (hWF : LengthInv m)
    (hrem : remove hash m key = (m', some v)) :
    m'.length = m.length - 1 ∧
    m'.tomb_count = m.tomb_count + 1 ∧
    (∃ pre post,
      probe_seq hash m key = pre ++ Bucket.entry key v :: post ∧
      probe_seq hash m' key = pre ++ Bucket.tomb :: post ∧
      ∀ b ∈ pre, b ≠ Bucket.none ∧ ∀ w, b ≠ Bucket.entry key w) ∧
    (∀ k', k' ≠ key → get hash m' k' = get hash m k') ∧
    (∀ (l : List (Bucket K V)) (k₀ : K),
      scan_find k₀ (Bucket.tomb :: l) = scan_find k₀ l ∧
      scan_find k₀ (Bucket.none :: l) = Option.none) := by
  unfold remove at hrem
  split at hrem
  · rename_i he
    simp at hrem
  · rename_i he
    split at hrem
    case _ v₀ hscan =>
      have hv : v₀ = v := by
        have h := congrArg Prod.snd hrem
        simpa using h
      subst hv
      have hm' : m' =
          { m with
              buckets := unrot (hash key % m.buckets.length)
                (remove_scan key (probe_seq hash m key)).1
              length := m.length - 1
              tomb_count := m.tomb_count + 1 } := by
        have h := congrArg Prod.fst hrem
        simpa using h.symm
      -- basic facts
      have hlen0 : m.length ≠ 0 := by
        intro h0
        exact he (by simp [is_empty, h0])
      have hbne : m.buckets ≠ [] := by
        intro hb
        rw [LengthInv, hb] at hWF
        exact hlen0 (by simpa [live_count] using hWF)
      have hnpos : 0 < m.buckets.length := List.length_pos.mpr hbne
      have hile : hash key % m.buckets.length ≤ m.buckets.length :=
        Nat.le_of_lt (Nat.mod_lt _ hnpos)
      obtain ⟨pre, post, hdec, hres, hpre⟩ := remove_scan_some hscan
      -- lengths
      have hr1len : (remove_scan key (probe_seq hash m key)).1.length =
          m.buckets.length := by
        rw [remove_scan_length, probe_seq_length]
      have hblen' : m'.buckets.length = m.buckets.length := by
        rw [hm']
        simpa [unrot_length] using hr1len
      -- the Forall₂ relation between the old and new bucket arrays
      have hforall_rot : List.Forall₂ (tombed key) (probe_seq hash m key)
          (remove_scan key (probe_seq hash m key)).1 := by
        rw [hres, hdec]
        exact List.rel_append (tombed_refl key pre)
          (List.Forall₂.cons (Or.inr ⟨v₀, rfl, rfl⟩) (tombed_refl key post))
      have hunrot_probe :
          unrot (hash key % m.buckets.length) (probe_seq hash m key) = m.buckets := by
        rw [probe_seq_def]
        exact unrot_rot _ _ hile
      have hF : List.Forall₂ (tombed key) m.buckets m'.buckets := by
        have h := forall₂_unrot (hash key % m.buckets.length) hforall_rot
        rw [hunrot_probe] at h
        rw [hm']
        exact h
      -- the probe run of the removed key in the new table
      have hprobe' : probe_seq hash m' key =
          (remove_scan key (probe_seq hash m key)).1 := by
        rw [probe_seq_def, hblen', hm']
        exact rot_unrot _ _ (by rw [hr1len]; exact hile)
      -- membership of the removed entry in the old array
      have hmem_entry : Bucket.entry key v₀ ∈ m.buckets := by
        have h1 : Bucket.entry key v₀ ∈ probe_seq hash m key := by
          rw [hdec]
          exact List.mem_append.mpr (Or.inr (List.mem_cons_self _ _))
        rw [probe_seq_eq_rotate hash m key hbne] at h1
        exact List.mem_rotate.mp h1
      refine ⟨by rw [hm'], by rw [hm'], ⟨pre, post, hdec, by rw [hprobe', hres], hpre⟩,
        ?_, ?_⟩
      · -- frame: lookups of other keys are unchanged
        intro k' hk'
        by_cases he' : is_empty m'
        · -- the new table reports empty: the old table held only the removed key
          rw [get, if_pos he']
          rw [get, if_neg he]
          rcases hg : scan_find k' (probe_seq hash m k') with _ | w
          · rfl
          · exfalso
            have hmem' : Bucket.entry k' w ∈ m.buckets := by
              have h1 := scan_find_mem hg
              rw [probe_seq_eq_rotate hash m k' hbne] at h1
              exact List.mem_rotate.mp h1
            have h2 := two_le_live_count hmem' hmem_entry hk'
            have h3 : m'.length = 0 := by
              simpa [is_empty] using he'
            rw [hm'] at h3
            simp only [] at h3
            rw [LengthInv] at hWF
            omega
        · rw [get, if_neg he', get, if_neg he]
          have hidx : hash k' % m'.buckets.length = hash k' % m.buckets.length := by
            rw [hblen']
          rw [probe_seq_def, probe_seq_def, hidx]
          exact scan_find_tombed hk' (forall₂_rot _ hF)
      · intro l k₀
        exact ⟨scan_find_cons_tomb k₀ l, scan_find_cons_none k₀ l⟩
    case _ hscan =>
      simp at hrem

/-- Witness for C4: remove key 0 from a three-slot run, then look up the key
that was pushed past it. -/
theorem c4_witness :
    LengthInv (⟨[Bucket.entry 0 7, Bucket.entry 3 8, Bucket.none], 2, 0,
      mkRat 2 5⟩ : HashMap Nat Nat) ∧
    (remove id (⟨[Bucket.entry 0 7, Bucket.entry 3 8, Bucket.none], 2, 0,
      mkRat 2 5⟩ : HashMap Nat Nat) 0).2 = some 7 ∧
    get id (remove id (⟨[Bucket.entry 0 7, Bucket.entry 3 8, Bucket.none], 2, 0,
      mkRat 2 5⟩ : HashMap Nat Nat) 0).1 3 =
      get id (⟨[Bucket.entry 0 7, Bucket.entry 3 8, Bucket.none], 2, 0,
      mkRat 2 5⟩ : HashMap Nat Nat) 3 := by
  have hwf : LengthInv (⟨[Bucket.entry 0 7, Bucket.entry 3 8, Bucket.none], 2, 0,
      mkRat 2 5⟩ : HashMap Nat Nat) := by
    unfold LengthInv
    decide
  have hsnd : (remove id (⟨[Bucket.entry 0 7, Bucket.entry 3 8, Bucket.none], 2, 0,
      mkRat 2 5⟩ : HashMap Nat Nat) 0).2 = some 7 := by decide
  have hrem : remove id (⟨[Bucket.entry 0 7, Bucket.entry 3 8, Bucket.none], 2, 0,
      mkRat 2 5⟩ : HashMap Nat Nat) 0 =
      ((remove id (⟨[Bucket.entry 0 7, Bucket.entry 3 8, Bucket.none], 2, 0,
        mkRat 2 5⟩ : HashMap Nat Nat) 0).1, some 7) := by
    rw [← hsnd]
  have h := c4_remove_tombstone_keeps_other_lookups id
    (⟨[Bucket.entry 0 7, Bucket.entry 3 8, Bucket.none], 2, 0,
      mkRat 2 5⟩ : HashMap Nat Nat) 0 7
    (remove id (⟨[Bucket.entry 0 7, Bucket.entry 3 8, Bucket.none], 2, 0,
      mkRat 2 5⟩ : HashMap Nat Nat) 0).1 hwf hrem
  exact ⟨hwf, hsnd, h.2.2.2.1 3 (by decide)⟩

end OpenHashing

namespace ChainingHashing

variable {K V : Type} [DecidableEq K] [DecidableEq V]

/-- Association lookup on the empty list. -/
theorem assoc_lookup_nil (key : K) : assoc_lookup ([] : List (K × V)) key = Option.none := rfl

/-- Association lookup step. -/
theorem assoc_lookup_cons (e : K × V) (es : List (K × V)) (key : K) :
    assoc_lookup (e :: es) key =
      if e.1 = key then some e.2 else assoc_lookup es key := by
  by_cases h : e.1 = key <;> simp [assoc_lookup, List.find?_cons, h]

/-- Association lookup skips a prefix in which the key does not occur. -/
theorem assoc_lookup_append_of_none {es₁ : List (K × V)} {key : K}
    (h : assoc_lookup es₁ key = Option.none) (es₂ : List (K × V)) :
    assoc_lookup (es₁ ++ es₂) key = assoc_lookup es₂ key := by
  induction es₁ with
  | nil => rfl
  | cons e rest ih =>
      rw [assoc_lookup_cons] at h
      by_cases he : e.1 = key
      · rw [if_pos he] at h; cases h
      · rw [if_neg he] at h
        rw [List.cons_append, assoc_lookup_cons, if_neg he]
        exact ih h

/-- Association lookup commits to a hit in the prefix. -/
theorem assoc_lookup_append_of_some {es₁ : List (K × V)} {key : K} {v : V}
    (h : assoc_lookup es₁ key = some v) (es₂ : List (K × V)) :
    assoc_lookup (es₁ ++ es₂) key = some v := by
  induction es₁ with
  | nil => cases h
  | cons e rest ih =>
      rw [assoc_lookup_cons] at h
      by_cases he : e.1 = key
      · rw [if_pos he] at h
        rw [List.cons_append, assoc_lookup_cons, if_pos he]
        exact h
      · rw [if_neg he] at h
        rw [List.cons_append, assoc_lookup_cons, if_neg he]
        exact ih h

/-- A lookup hit is a member. -/
theorem assoc_lookup_eq_some_mem {es : List (K × V)} {key : K} {v : V}
    (h : assoc_lookup es key = some v) : (key, v) ∈ es := by
  induction es with
  | nil => cases h
  | cons e rest ih =>
      rw [assoc_lookup_cons] at h
      by_cases he : e.1 = key
      · rw [if_pos he] at h
        cases h
        rcases e with ⟨k0, v0⟩
        cases he
        exact List.mem_cons_self _ _
      · rw [if_neg he] at h
        exact List.mem_cons_of_mem _ (ih h)

/-- A lookup misses exactly when the key occurs nowhere. -/
theorem assoc_lookup_eq_none_iff {es : List (K × V)} {key : K} :
    assoc_lookup es key = Option.none ↔ ∀ e ∈ es, e.1 ≠ key := by
  induction es with
  | nil => simp [assoc_lookup_nil]
  | cons e rest ih =>
      rw [assoc_lookup_cons]
      by_cases he : e.1 = key
      · simp [he]
      · simp [he, ih]

/-- With unique keys, membership determines the lookup. -/
theorem assoc_lookup_of_mem_nodup {es : List (K × V)} {key : K} {v : V}
    (hnd : (es.map Prod.fst).Nodup) (hm : (key, v) ∈ es) :
    assoc_lookup es key = some v := by
  induction es with
  | nil => cases hm
  | cons e rest ih =>
      rw [assoc_lookup_cons]
      rcases List.mem_cons.mp hm with rfl | hm'
      · rw [if_pos rfl]
      · by_cases he : e.1 = key
        · exfalso
          rw [List.map_cons, List.nodup_cons] at hnd
          exact hnd.1 (he ▸ List.mem_map.mpr ⟨(key, v), hm', rfl⟩)
        · rw [if_neg he]
          exact ih (by rw [List.map_cons, List.nodup_cons] at hnd; exact hnd.2) hm'

/-- Deleting a non-matching entry does not change the lookup. -/
theorem assoc_lookup_middle (pre post : List (K × V)) (k₀ : K) (v₀ : V) (key : K)
    (h : k₀ ≠ key) :
    assoc_lookup (pre ++ (k₀, v₀) :: post) key = assoc_lookup (pre ++ post) key := by
  induction pre with
  | nil => rw [List.nil_append, List.nil_append, assoc_lookup_cons, if_neg h]
  | cons e rest ih =>
      rw [List.cons_append, List.cons_append, assoc_lookup_cons, assoc_lookup_cons, ih]

/-- Inserting a non-matching entry does not change the lookup (the reverse
reading of `assoc_lookup_middle`). -/
theorem assoc_lookup_middle' (pre post : List (K × V)) (k₀ : K) (v₀ : V) (key : K)
    (h : k₀ ≠ key) :
    assoc_lookup (pre ++ post) key = assoc_lookup (pre ++ (k₀, v₀) :: post) key :=
  (assoc_lookup_middle pre post k₀ v₀ key h).symm

/-- A list indexes to an element exactly when it splits around it. -/
theorem get?_decomp {α : Type} {l : List α} {i : Nat} {c : α}
    (h : l.get? i = some c) : l = l.take i ++ c :: l.drop (i + 1) := by
  rw [List.get?_eq_getElem?] at h
  obtain ⟨hlt, hget⟩ := List.getElem?_eq_some_iff.mp h
  calc l = l.take i ++ l.drop i := (List.take_append_drop i l).symm
    _ = l.take i ++ c :: l.drop (i + 1) := by
        rw [List.drop_eq_getElem_cons hlt, hget]

/-- `set` splits the same way. -/
theorem set_decomp {α : Type} {l : List α} {i : Nat} {c : α}
    (h : l.get? i = some c) (c' : α) :
    l.set i c' = l.take i ++ c' :: l.drop (i + 1) := by
  rw [List.get?_eq_getElem?] at h
  obtain ⟨hlt, _⟩ := List.getElem?_eq_some_iff.mp h
  rw [List.set_eq_take_append_cons_drop, if_pos hlt]

/-- Decomposition of the entry list at a bucket. -/
theorem entries_decomp {m : HashMap K V} {i : Nat} {chain : List (K × V)}
    (h : m.buckets.get? i = some chain) :
    entries m = (m.buckets.take i).flatten ++
      (chain ++ (m.buckets.drop (i + 1)).flatten) := by
  rw [entries]
  conv_lhs => rw [get?_decomp h]
  rw [List.flatten_append, List.flatten_cons]

/-- Decomposition of the entry list after overwriting a bucket. -/
theorem flatten_set {α : Type} {l : List (List α)} {i : Nat} {c : List α}
    (h : l.get? i = some c) (c' : List α) :
    (l.set i c').flatten = (l.take i).flatten ++ (c' ++ (l.drop (i + 1)).flatten) := by
  rw [set_decomp h c', List.flatten_append, List.flatten_cons]

/-- Entries found in a flattened `take` prefix sit in an earlier bucket. -/
theorem mem_take_flatten_lt {α : Type} {l : List (List α)} {i : Nat} {e : α}
    (h : e ∈ (l.take i).flatten) : ∃ j c, j < i ∧ l.get? j = some c ∧ e ∈ c := by
  obtain ⟨c, hc, he⟩ := List.mem_flatten.mp h
  obtain ⟨j, hj⟩ := List.mem_iff_get?.mp hc
  rw [List.get?_eq_getElem?, List.getElem?_take] at hj
  by_cases hji : j < i
  · rw [if_pos hji] at hj
    exact ⟨j, c, hji, by rw [List.get?_eq_getElem?]; exact hj, he⟩
  · rw [if_neg hji] at hj
    cases hj

/-- Entries found in a flattened `drop` suffix sit in a later bucket. -/
theorem mem_drop_flatten_ge {α : Type} {l : List (List α)} {i : Nat} {e : α}
    (h : e ∈ (l.drop i).flatten) : ∃ j c, i ≤ j ∧ l.get? j = some c ∧ e ∈ c := by
  obtain ⟨c, hc, he⟩ := List.mem_flatten.mp h
  obtain ⟨j, hj⟩ := List.mem_iff_get?.mp hc
  rw [List.get?_eq_getElem?, List.getElem?_drop] at hj
  exact ⟨i + j, c, Nat.le_add_right _ _, by rw [List.get?_eq_getElem?]; exact hj,
    he⟩

/-- A fresh table holds no entries. -/
theorem entries_with_exact_capacity (capacity : Nat) (load_factor : ℚ) :
    entries (with_exact_capacity capacity load_factor : HashMap K V) = [] := by
  rw [entries, with_exact_capacity]
  induction capacity with
  | zero => rfl
  | succ n ih => simp only [List.replicate, List.flatten_cons, List.nil_append]; exact ih

/-- A fresh table is well-formed for every hash function. -/
theorem WF_with_exact_capacity (hash : K → Nat) (capacity : Nat) (load_factor : ℚ) :
    WF hash (with_exact_capacity capacity load_factor : HashMap K V) := by
  refine ⟨by rw [entries_with_exact_capacity]; rfl,
    by rw [entries_with_exact_capacity]; simp, ?_⟩
  intro i chain h e he
  rw [with_exact_capacity] at h
  simp only [List.get?_eq_getElem?, List.getElem?_replicate] at h
  by_cases hi : i < capacity
  · rw [if_pos hi] at h
    cases h
    cases he
  · rw [if_neg hi] at h
    cases h

/-- A fresh table reports no key. -/
theorem get_with_exact_capacity (hash : K → Nat) (capacity : Nat) (load_factor : ℚ)
    (key : K) :
    get hash (with_exact_capacity capacity load_factor : HashMap K V) key =
      Option.none := rfl

/-- Central lemma: on a well-formed table, `get` is association lookup over
the entry list. -/
theorem get_eq_assoc {hash : K → Nat} {m : HashMap K V} (hWF : WF hash m) (key : K) :
    get hash m key = assoc_lookup (entries m) key := by
  by_cases he : is_empty m
  · have hlen : m.length = 0 := by simpa [is_empty] using he
    have hent : entries m = [] :=
      List.length_eq_zero.mp (by rw [← hWF.1, hlen])
    rw [get, if_pos he, hent, assoc_lookup_nil]
  · have hlen : m.length ≠ 0 := by simpa [is_empty] using he
    have hent_ne : entries m ≠ [] := by
      intro h0
      exact hlen (by rw [hWF.1, h0]; rfl)
    have hbne : m.buckets ≠ [] := by
      intro h0
      exact hent_ne (by rw [entries, h0]; rfl)
    have hpos : 0 < m.buckets.length := List.length_pos.mpr hbne
    have hi : hash key % m.buckets.length < m.buckets.length := Nat.mod_lt _ hpos
    obtain ⟨chain, hchain⟩ : ∃ c, m.buckets.get? (hash key % m.buckets.length) = some c := by
      rcases hq : m.buckets.get? (hash key % m.buckets.length) with _ | c
      · rw [List.get?_eq_getElem?] at hq
        rw [List.getElem?_eq_none_iff] at hq
        omega
      · exact ⟨c, rfl⟩
    rw [get, if_neg he, hchain]
    show assoc_lookup chain key = _
    rw [entries_decomp hchain]
    have htake : assoc_lookup (m.buckets.take (hash key % m.buckets.length)).flatten key =
        Option.none := by
      rw [assoc_lookup_eq_none_iff]
      intro e hmem
      obtain ⟨j, c, hji, hj, hec⟩ := mem_take_flatten_lt hmem
      have := hWF.2.2 j c hj e hec
      intro hk
      rw [hk] at this
      omega
    have hdrop : assoc_lookup
        (m.buckets.drop (hash key % m.buckets.length + 1)).flatten key =
        Option.none := by
      rw [assoc_lookup_eq_none_iff]
      intro e hmem
      obtain ⟨j, c, hji, hj, hec⟩ := mem_drop_flatten_ge hmem
      have := hWF.2.2 j c hj e hec
      intro hk
      rw [hk] at this
      omega
    rw [assoc_lookup_append_of_none htake]
    rcases hc : assoc_lookup chain key with _ | v
    · rw [assoc_lookup_append_of_none hc, hdrop]
    · rw [assoc_lookup_append_of_some hc]

/-- On a well-formed table, `get` answers exactly membership of the entry
list. -/
theorem get_iff_mem {hash : K → Nat} {m : HashMap K V} (hWF : WF hash m)
    (key : K) (v : V) :
    get hash m key = some v ↔ (key, v) ∈ entries m := by
  rw [get_eq_assoc hWF]
  constructor
  · exact assoc_lookup_eq_some_mem
  · exact assoc_lookup_of_mem_nodup hWF.2.1

end ChainingHashing

namespace ChainingHashing

variable {K V : Type} [DecidableEq K] [DecidableEq V]

/-- The value returned by the chain surgery is the chain lookup. -/
theorem remove_chain_snd (key : K) (chain : List (K × V)) :
    (remove_chain key chain).2 = assoc_lookup chain key := by
  induction chain with
  | nil => rfl
  | cons e rest ih =>
      rw [assoc_lookup_cons]
      by_cases he : e.1 = key
      · simp [remove_chain, he]
      · simp [remove_chain, he, ih]

/-- A missing key leaves the chain untouched. -/
theorem remove_chain_none {key : K} {chain : List (K × V)}
    (h : (remove_chain key chain).2 = Option.none) :
    (remove_chain key chain).1 = chain := by
  induction chain with
  | nil => rfl
  | cons e rest ih =>
      by_cases he : e.1 = key
      · simp [remove_chain, he] at h
      · simp only [remove_chain, he, if_neg, ite_false] at h ⊢
        simp only [List.cons.injEq, true_and]
        exact ih (by simpa using h)

/-- A hit of the chain surgery: the chain splits at the first entry carrying
the key, which is dropped with the rest re-linked. -/
theorem remove_chain_some {key : K} {chain : List (K × V)} {v : V}
    (h : (remove_chain key chain).2 = some v) :
    ∃ pre post, chain = pre ++ (key, v) :: post ∧
      (remove_chain key chain).1 = pre ++ post ∧
      ∀ e ∈ pre, e.1 ≠ key := by
  induction chain with
  | nil => cases h
  | cons e rest ih =>
      rcases e with ⟨k0, v0⟩
      by_cases he : k0 = key
      · subst he
        have hv : v0 = v := by simpa [remove_chain] using h
        subst hv
        exact ⟨[], rest, by simp, by simp [remove_chain], by simp⟩
      · have h' : (remove_chain key rest).2 = some v := by
          simpa [remove_chain, he] using h
        obtain ⟨pre, post, hdec, hres, hpre⟩ := ih h'
        refine ⟨(k0, v0) :: pre, post, by rw [hdec, List.cons_append], ?_, ?_⟩
        · simp only [remove_chain, he, ite_false, List.cons_append, if_neg]
          simp only [List.cons.injEq, true_and]
          exact hres
        · intro x hx
          rcases List.mem_cons.mp hx with rfl | hx'
          · exact he
          · exact hpre x hx'

/-- The value returned by `remove` is the table lookup. -/
theorem remove_snd_eq_get (hash : K → Nat) (m : HashMap K V) (key : K) :
    (remove hash m key).2 = get hash m key := by
  by_cases he : is_empty m
  · rw [remove, get, if_pos he, if_pos he]
  · rcases hq : m.buckets.get? (hash key % m.buckets.length) with _ | chain
    · rw [remove, get, if_neg he, if_neg he]
      simp only [hq]
    · have hsnd := remove_chain_snd key chain
      rcases hr : (remove_chain key chain).2 with _ | v
      · rw [hr] at hsnd
        rw [remove, get, if_neg he, if_neg he]
        simp only [hq, hr]
        exact hsnd
      · rw [hr] at hsnd
        rw [remove, get, if_neg he, if_neg he]
        simp only [hq, hr]
        exact hsnd

/-- A miss leaves `remove` a strict no-op. -/
theorem remove_none_noop {hash : K → Nat} {m : HashMap K V} {key : K}
    (h : (remove hash m key).2 = Option.none) :
    remove hash m key = (m, Option.none) := by
  by_cases he : is_empty m
  · rw [remove, if_pos he]
  · rcases hq : m.buckets.get? (hash key % m.buckets.length) with _ | chain
    · rw [remove, if_neg he]
      simp only [hq]
    · rcases hr : (remove_chain key chain).2 with _ | v
      · rw [remove, if_neg he]
        simp only [hq, hr]
      · exfalso
        rw [remove, if_neg he] at h
        simp only [hq, hr] at h
        cases h

/-- Keys absent from `get` are absent from the entry list. -/
theorem not_mem_keys_of_get_none {hash : K → Nat} {m : HashMap K V}
    (hWF : WF hash m) {key : K} (h : get hash m key = Option.none) :
    ∀ e ∈ entries m, e.1 ≠ key := by
  rw [get_eq_assoc hWF] at h
  exact assoc_lookup_eq_none_iff.mp h

/-- A key-unique entry list with the key in the middle has it nowhere
else. -/
theorem nodup_middle_not_mem {P Q : List (K × V)} {key : K} {v : V}
    (h : ((P ++ (key, v) :: Q).map Prod.fst).Nodup) :
    ∀ e ∈ P ++ Q, e.1 ≠ key := by
  have hperm : ((P ++ (key, v) :: Q).map Prod.fst).Perm
      (key :: (P ++ Q).map Prod.fst) := by
    rw [List.map_append, List.map_cons, List.map_append]
    exact List.perm_middle
  have h2 := hperm.nodup_iff.mp h
  rw [List.nodup_cons] at h2
  intro e he hk
  exact h2.1 (hk ▸ List.mem_map.mpr ⟨e, he, rfl⟩)

end ChainingHashing

namespace ChainingHashing

variable {K V : Type} [DecidableEq K] [DecidableEq V]

/-- A successful `remove`: the result table is well-formed, one entry
shorter, answers nothing for the removed key and is unchanged on every
other key; its entry list is the old one with the removed pair cut out. -/
theorem remove_some_spec {hash : K → Nat} {m : HashMap K V} {key : K} {v : V}
    (hWF : WF hash m) (h : (remove hash m key).2 = some v) :
    WF hash (remove hash m key).1 ∧
    (remove hash m key).1.length = m.length - 1 ∧
    (remove hash m key).1.buckets.length = m.buckets.length ∧
    (remove hash m key).1.load_factor = m.load_factor ∧
    get hash (remove hash m key).1 key = Option.none ∧
    (∀ k', k' ≠ key → get hash (remove hash m key).1 k' = get hash m k') ∧
    ∃ P Q, entries m = P ++ (key, v) :: Q ∧
      entries (remove hash m key).1 = P ++ Q := by
  by_cases he : is_empty m
  · rw [remove, if_pos he] at h
    cases h
  rcases hq : m.buckets.get? (hash key % m.buckets.length) with _ | chain
  · rw [remove, if_neg he] at h
    simp only [hq] at h
    cases h
  rcases hr : (remove_chain key chain).2 with _ | v₀
  · rw [remove, if_neg he] at h
    simp only [hq, hr] at h
    cases h
  have hveq : v₀ = v := by
    rw [remove, if_neg he] at h
    simp only [hq, hr] at h
    simpa using h
  subst hveq
  have hres : remove hash m key =
      ({ m with
          buckets := m.buckets.set (hash key % m.buckets.length)
            (remove_chain key chain).1
          length := m.length - 1 }, some v₀) := by
    rw [remove, if_neg he]
    simp only [hq, hr]
  have hlt : hash key % m.buckets.length < m.buckets.length := by
    rw [List.get?_eq_getElem?] at hq
    obtain ⟨hlt, _⟩ := List.getElem?_eq_some_iff.mp hq
    exact hlt
  obtain ⟨pre, post, hcdec, hcres, hcpre⟩ := remove_chain_some hr
  have hentm : entries m = (m.buckets.take (hash key % m.buckets.length)).flatten ++
      (chain ++ (m.buckets.drop (hash key % m.buckets.length + 1)).flatten) :=
    entries_decomp hq
  have hentm' : entries (remove hash m key).1 =
      (m.buckets.take (hash key % m.buckets.length)).flatten ++
        ((remove_chain key chain).1 ++
          (m.buckets.drop (hash key % m.buckets.length + 1)).flatten) := by
    rw [hres]
    exact flatten_set hq _
  have hPQ : entries m =
      ((m.buckets.take (hash key % m.buckets.length)).flatten ++ pre) ++
        (key, v₀) :: (post ++
          (m.buckets.drop (hash key % m.buckets.length + 1)).flatten) := by
    rw [hentm, hcdec]
    simp [List.append_assoc]
  have hPQ' : entries (remove hash m key).1 =
      ((m.buckets.take (hash key % m.buckets.length)).flatten ++ pre) ++
        (post ++ (m.buckets.drop (hash key % m.buckets.length + 1)).flatten) := by
    rw [hentm', hcres]
    simp [List.append_assoc]
  have hsub : (((m.buckets.take (hash key % m.buckets.length)).flatten ++ pre) ++
      (post ++ (m.buckets.drop (hash key % m.buckets.length + 1)).flatten)).Sublist
      (((m.buckets.take (hash key % m.buckets.length)).flatten ++ pre) ++
        (key, v₀) :: (post ++
          (m.buckets.drop (hash key % m.buckets.length + 1)).flatten)) :=
    List.Sublist.append_left (List.sublist_cons_self _ _) _
  have hnodup' : ((entries (remove hash m key).1).map Prod.fst).Nodup := by
    rw [hPQ']
    exact List.Nodup.sublist (List.Sublist.map _ hsub) (by rw [← hPQ]; exact hWF.2.1)
  have hWF' : WF hash (remove hash m key).1 := by
    refine ⟨?_, hnodup', ?_⟩
    · have h1 : (entries m).length = (entries (remove hash m key).1).length + 1 := by
        rw [hPQ, hPQ']
        simp
        omega
      have h2 : (remove hash m key).1.length = m.length - 1 := by rw [hres]
      rw [h2, hWF.1, h1]
      omega
    · intro j c hj e hec
      have hbl : (remove hash m key).1.buckets.length = m.buckets.length := by
        rw [hres]
        exact List.length_set _ _ _
      rw [hbl]
      have hj' : ((m.buckets.set (hash key % m.buckets.length)
          (remove_chain key chain).1).get? j) = some c := by
        rw [← hj, hres]
      rw [List.get?_eq_getElem?, List.getElem?_set] at hj'
      by_cases hji : hash key % m.buckets.length = j
      · rw [if_pos hji, if_pos (hji ▸ hlt)] at hj'
        cases hj'
        have hechain : e ∈ chain := by
          rw [hcdec]
          rcases List.mem_append.mp (by rw [← hcres]; exact hec) with h1 | h1
          · exact List.mem_append.mpr (Or.inl h1)
          · exact List.mem_append.mpr (Or.inr (List.mem_cons_of_mem _ h1))
        exact hji ▸ hWF.2.2 _ chain hq e hechain
      · rw [if_neg hji] at hj'
        exact hWF.2.2 j c (by rw [List.get?_eq_getElem?]; exact hj') e hec
  have hkeynot : ∀ e ∈ entries (remove hash m key).1, e.1 ≠ key := by
    rw [hPQ']
    exact nodup_middle_not_mem (by rw [← hPQ]; exact hWF.2.1)
  refine ⟨hWF', by rw [hres], by rw [hres]; exact List.length_set _ _ _,
    by rw [hres], ?_, ?_, ?_⟩
  · rw [get_eq_assoc hWF']
    exact assoc_lookup_eq_none_iff.mpr hkeynot
  · intro k' hk'
    rw [get_eq_assoc hWF', get_eq_assoc hWF, hPQ, hPQ']
    exact assoc_lookup_middle' _ _ _ _ _ (fun hkk => hk' hkk.symm)
  · exact ⟨_, _, hPQ, hPQ'⟩

end ChainingHashing

namespace ChainingHashing

variable {K V : Type} [DecidableEq K] [DecidableEq V]

/-- Flattening empty buckets gives no entries. -/
theorem flatten_replicate_nil {α : Type} :
    ∀ n, (List.replicate n ([] : List α)).flatten = []
  | 0 => rfl
  | n + 1 => by
      rw [List.replicate_succ, List.flatten_cons, List.nil_append]
      exact flatten_replicate_nil n

/-- Placing a fresh key prepends it to its bucket: the result is defined,
well-formed, one longer, answers the new value for the key and is unchanged
elsewhere. -/
theorem place_spec {hash : K → Nat} {m : HashMap K V} (key : K) (value : V)
    (hWF : WF hash m) (hbne : m.buckets ≠ [])
    (hfresh : ∀ e ∈ entries m, e.1 ≠ key) :
    ∃ m', place hash m key value = some m' ∧
      WF hash m' ∧
      m'.length = m.length + 1 ∧
      m'.buckets.length = m.buckets.length ∧
      m'.load_factor = m.load_factor ∧
      get hash m' key = some value ∧
      (∀ k', k' ≠ key → get hash m' k' = get hash m k') := by
  have hpos : 0 < m.buckets.length := List.length_pos.mpr hbne
  have hlt : hash key % m.buckets.length < m.buckets.length := Nat.mod_lt _ hpos
  obtain ⟨chain, hq⟩ : ∃ c, m.buckets.get? (hash key % m.buckets.length) = some c := by
    rcases hq : m.buckets.get? (hash key % m.buckets.length) with _ | c
    · rw [List.get?_eq_getElem?, List.getElem?_eq_none_iff] at hq
      omega
    · exact ⟨c, rfl⟩
  have hplace : place hash m key value = some
      { m with
          buckets := m.buckets.set (hash key % m.buckets.length) ((key, value) :: chain)
          length := m.length + 1 } := by
    rw [place]
    simp only [hq]
  have hentm : entries m = (m.buckets.take (hash key % m.buckets.length)).flatten ++
      (chain ++ (m.buckets.drop (hash key % m.buckets.length + 1)).flatten) :=
    entries_decomp hq
  have hent' : entries
      ({ m with
          buckets := m.buckets.set (hash key % m.buckets.length) ((key, value) :: chain)
          length := m.length + 1 } : HashMap K V) =
      (m.buckets.take (hash key % m.buckets.length)).flatten ++
        ((key, value) :: (chain ++
          (m.buckets.drop (hash key % m.buckets.length + 1)).flatten)) := by
    show (m.buckets.set (hash key % m.buckets.length) ((key, value) :: chain)).flatten = _
    rw [flatten_set hq, List.cons_append]
  have htakesub : ∀ e ∈ (m.buckets.take (hash key % m.buckets.length)).flatten,
      e ∈ entries m := by
    intro e hmem
    rw [hentm]
    exact List.mem_append.mpr (Or.inl hmem)
  have hperm : ((entries
      ({ m with
          buckets := m.buckets.set (hash key % m.buckets.length) ((key, value) :: chain)
          length := m.length + 1 } : HashMap K V)).map Prod.fst).Perm
      (key :: (entries m).map Prod.fst) := by
    rw [hent', hentm]
    simp only [List.map_append, List.map_cons]
    exact List.perm_middle
  have hWF' : WF hash
      ({ m with
          buckets := m.buckets.set (hash key % m.buckets.length) ((key, value) :: chain)
          length := m.length + 1 } : HashMap K V) := by
    refine ⟨?_, ?_, ?_⟩
    · have h1 : (entries
          ({ m with
              buckets := m.buckets.set (hash key % m.buckets.length) ((key, value) :: chain)
              length := m.length + 1 } : HashMap K V)).length =
          (entries m).length + 1 := by
        rw [hent', hentm]
        simp
        omega
      rw [h1, ← hWF.1]
    · rw [hperm.nodup_iff, List.nodup_cons]
      refine ⟨?_, hWF.2.1⟩
      intro hmem
      obtain ⟨e, he, hek⟩ := List.mem_map.mp hmem
      exact hfresh e he hek
    · intro j c hj e hec
      have hbl : (m.buckets.set (hash key % m.buckets.length)
          ((key, value) :: chain)).length = m.buckets.length :=
        List.length_set _ _ _
      show hash e.1 % (m.buckets.set _ _).length = j
      rw [hbl]
      rw [List.get?_eq_getElem?] at hj
      change (m.buckets.set (hash key % m.buckets.length)
        ((key, value) :: chain))[j]? = some c at hj
      rw [List.getElem?_set] at hj
      by_cases hji : hash key % m.buckets.length = j
      · rw [if_pos hji, if_pos (hji ▸ hlt)] at hj
        cases hj
        rcases List.mem_cons.mp hec with rfl | hec'
        · exact hji
        · exact hji ▸ hWF.2.2 _ chain hq e hec'
      · rw [if_neg hji] at hj
        exact hWF.2.2 j c (by rw [List.get?_eq_getElem?]; exact hj) e hec
  refine ⟨_, hplace, hWF', rfl, List.length_set _ _ _, rfl, ?_, ?_⟩
  · rw [get_eq_assoc hWF', hent']
    have htn : assoc_lookup
        (m.buckets.take (hash key % m.buckets.length)).flatten key = Option.none :=
      assoc_lookup_eq_none_iff.mpr (fun e he => hfresh e (htakesub e he))
    rw [assoc_lookup_append_of_none htn, assoc_lookup_cons, if_pos rfl]
  · intro k' hk'
    rw [get_eq_assoc hWF', get_eq_assoc hWF, hent', hentm]
    exact assoc_lookup_middle _ _ _ _ _ (fun hkk => hk' hkk.symm)

/-- The lazy allocation preserves the observable table and leaves the bucket
array non-empty. -/
theorem lazy_alloc_spec (hash : K → Nat) (m : HashMap K V) (hWF : WF hash m) :
    WF hash (lazy_alloc m) ∧
    (∀ k, get hash (lazy_alloc m) k = get hash m k) ∧
    (lazy_alloc m).length = m.length ∧
    (lazy_alloc m).load_factor = m.load_factor ∧
    (lazy_alloc m).buckets ≠ [] := by
  by_cases hb : m.buckets.isEmpty
  · have hbe : m.buckets = [] := by simpa [List.isEmpty_iff] using hb
    have hent : entries m = [] := by rw [entries, hbe]; rfl
    have hlen0 : m.length = 0 := by rw [hWF.1, hent]; rfl
    have hla : lazy_alloc m = { m with buckets := List.replicate 64 [] } := by
      rw [lazy_alloc, if_pos hb]
    have hent' : entries (lazy_alloc m) = [] := by
      rw [hla]
      exact flatten_replicate_nil 64
    refine ⟨⟨?_, ?_, ?_⟩, ?_, by rw [hla], by rw [hla], ?_⟩
    · rw [hent', hla]
      exact hlen0
    · rw [hent']
      simp
    · intro j c hj e hec
      rw [hla] at hj
      simp only [List.get?_eq_getElem?, List.getElem?_replicate] at hj
      by_cases hjlt : j < 64
      · rw [if_pos hjlt] at hj
        cases hj
        cases hec
      · rw [if_neg hjlt] at hj
        cases hj
    · intro k
      have h1 : is_empty (lazy_alloc m) = true := by
        rw [hla]
        simp [is_empty, hlen0]
      have h2 : is_empty m = true := by simp [is_empty, hlen0]
      rw [get, if_pos h1, get, if_pos h2]
    · rw [hla]
      intro h0
      have := congrArg List.length h0
      simp at this
  · have hla : lazy_alloc m = m := by rw [lazy_alloc, if_neg hb]
    rw [hla]
    exact ⟨hWF, fun _ => rfl, rfl, rfl, by simpa [List.isEmpty_iff] using hb⟩

end ChainingHashing

namespace ChainingHashing

variable {K V : Type} [DecidableEq K] [DecidableEq V]

/-- `insert` satisfies its specification whenever the rehash it may invoke
satisfies its own. -/
theorem insert_step_spec (hash : K → Nat)
    (rehashFn : HashMap K V → Option (HashMap K V)) (hreh : RehashOK hash rehashFn) :
    InsertOK hash (insert_step hash rehashFn) := by
  intro m key value old m' hWF hins
  obtain ⟨hWFa, hgeta, hlena, hlfa, hbnea⟩ := lazy_alloc_spec hash m hWF
  rw [insert_step] at hins
  rcases hpre : (if (lazy_alloc m).load_factor ≤ fill_factor (lazy_alloc m)
      then rehashFn (lazy_alloc m) else some (lazy_alloc m)) with _ | m2
  · rw [hpre] at hins
    cases hins
  rw [hpre, Option.some_bind] at hins
  have hm2 : WF hash m2 ∧ (∀ k, get hash m2 k = get hash m k) ∧
      m2.length = m.length ∧ m2.load_factor = m.load_factor ∧ m2.buckets ≠ [] := by
    by_cases hc : (lazy_alloc m).load_factor ≤ fill_factor (lazy_alloc m)
    · rw [if_pos hc] at hpre
      obtain ⟨w1, w2, w3, w4, w5⟩ := hreh (lazy_alloc m) m2 hWFa hbnea hpre
      exact ⟨w1, fun k => (w2 k).trans (hgeta k), w3.trans hlena, w4.trans hlfa, w5⟩
    · rw [if_neg hc] at hpre
      cases hpre
      exact ⟨hWFa, hgeta, hlena, hlfa, hbnea⟩
  obtain ⟨hWF2, hget2, hlen2, hlf2, hbne2⟩ := hm2
  have hrget := remove_snd_eq_get hash m2 key
  rcases hg2 : get hash m2 key with _ | w
  · -- the key is absent: remove is a no-op and place adds the fresh entry
    have hrs : (remove hash m2 key).2 = Option.none := by rw [hrget, hg2]
    have hr1 : (remove hash m2 key).1 = m2 := by rw [remove_none_noop hrs]
    rw [hr1, hrs] at hins
    obtain ⟨m3, hpl, hWF3, hlen3, hbl3, hlf3, hget3, hframe3⟩ :=
      place_spec key value hWF2 hbne2 (not_mem_keys_of_get_none hWF2 hg2)
    rw [hpl] at hins
    simp only [Option.map_some', Option.some.injEq, Prod.mk.injEq] at hins
    obtain ⟨hold, hm3⟩ := hins
    subst hm3
    have hgmk : get hash m key = Option.none := by rw [← hget2 key, hg2]
    refine ⟨hWF3, ?_, hget3, ?_, ?_, hlf3.trans hlf2, ?_⟩
    · rw [← hold, hgmk]
    · intro k' hk'
      rw [hframe3 k' hk', hget2 k']
    · rw [hlen3, hlen2, hgmk]
      simp
    · intro h0
      rw [← List.length_eq_zero] at h0
      rw [hbl3] at h0
      exact (List.length_pos.mpr hbne2).ne' (by omega)
  · -- the key is present: remove cuts it out and place re-adds it
    have hrs : (remove hash m2 key).2 = some w := by rw [hrget, hg2]
    obtain ⟨hWFr, hlenr, hblr, hlfr, hgetr, hframer, _, _, _, _⟩ :=
      remove_some_spec hWF2 hrs
    have hbner : (remove hash m2 key).1.buckets ≠ [] := by
      intro h0
      have := congrArg List.length h0
      rw [hblr] at this
      exact (List.length_pos.mpr hbne2).ne' (by simpa using this)
    obtain ⟨m3, hpl, hWF3, hlen3, hbl3, hlf3, hget3, hframe3⟩ :=
      place_spec key value hWFr hbner (not_mem_keys_of_get_none hWFr hgetr)
    rw [hrs, hpl] at hins
    simp only [Option.map_some', Option.some.injEq, Prod.mk.injEq] at hins
    obtain ⟨hold, hm3⟩ := hins
    subst hm3
    have hne2 : m2.length ≠ 0 := by
      intro h0
      rw [get, if_pos (by simp [is_empty, h0])] at hg2
      cases hg2
    have hgmk : get hash m key = some w := by rw [← hget2 key, hg2]
    refine ⟨hWF3, ?_, hget3, ?_, ?_, hlf3.trans (hlfr.trans hlf2), ?_⟩
    · rw [← hold, hgmk]
    · intro k' hk'
      rw [hframe3 k' hk', hframer k' hk', hget2 k']
    · rw [hlen3, hlenr, hlen2, hgmk]
      simp
      omega
    · intro h0
      rw [← List.length_eq_zero] at h0
      rw [hbl3, hblr] at h0
      exact (List.length_pos.mpr hbne2).ne' (by omega)

/-- A refill starting from a failed state stays failed. -/
theorem refill_none (hash : K → Nat)
    (insertFn : HashMap K V → K → V → Option (Option V × HashMap K V)) :
    ∀ es : List (K × V),
      es.foldl (fun acc e => acc.bind fun u => (insertFn u e.1 e.2).map (fun r => r.2))
        Option.none = (Option.none : Option (HashMap K V))
  | [] => rfl
  | e :: rest => by
      rw [List.foldl_cons]
      show rest.foldl _ Option.none = Option.none
      exact refill_none hash insertFn rest

/-- The refill loop of `rehash`: inserting a key-unique list of fresh
entries succeeds entry by entry, growing the length by the list length and
making lookups answer the list first and the base table second. -/
theorem refill_spec (hash : K → Nat)
    (insertFn : HashMap K V → K → V → Option (Option V × HashMap K V))
    (hins : InsertOK hash insertFn) :
    ∀ (es : List (K × V)) (t t' : HashMap K V),
      WF hash t → t.buckets ≠ [] →
      (es.map Prod.fst).Nodup →
      (∀ e ∈ es, get hash t e.1 = Option.none) →
      es.foldl (fun acc e => acc.bind fun u => (insertFn u e.1 e.2).map (fun r => r.2))
        (some t) = some t' →
      WF hash t' ∧ t'.buckets ≠ [] ∧ t'.load_factor = t.load_factor ∧
      t'.length = t.length + es.length ∧
      (∀ k, get hash t' k =
        match assoc_lookup es k with
        | some v => some v
        | Option.none => get hash t k) := by
  intro es
  induction es with
  | nil =>
      intro t t' hWF hbne _ _ hf
      cases hf
      exact ⟨hWF, hbne, rfl, rfl, fun k => rfl⟩
  | cons e rest ih =>
      intro t t' hWF hbne hnd hfresh hf
      rw [List.foldl_cons] at hf
      simp only [Option.some_bind] at hf
      rcases hstep : insertFn t e.1 e.2 with _ | r
      · rw [hstep] at hf
        simp only [Option.map_none'] at hf
        rw [refill_none hash insertFn rest] at hf
        cases hf
      · rw [hstep] at hf
        simp only [Option.map_some'] at hf
        obtain ⟨hWF1, hold, hget1, hframe1, hlen1, hlf1, hbne1⟩ :=
          hins t e.1 e.2 r.1 r.2 hWF hstep
        rw [List.map_cons, List.nodup_cons] at hnd
        have hlen1' : r.2.length = t.length + 1 := by
          rw [hlen1, hfresh e (List.mem_cons_self _ _)]
          simp
        have hfresh_rest : ∀ e' ∈ rest, get hash r.2 e'.1 = Option.none := by
          intro e' he'
          have hne : e'.1 ≠ e.1 := by
            intro heq
            exact hnd.1 (heq ▸ List.mem_map.mpr ⟨e', he', rfl⟩)
          rw [hframe1 e'.1 hne]
          exact hfresh e' (List.mem_cons_of_mem _ he')
        obtain ⟨w1, w2, w3, w4, w5⟩ := ih r.2 t' hWF1 hbne1 hnd.2 hfresh_rest hf
        refine ⟨w1, w2, w3.trans hlf1, ?_, ?_⟩
        · rw [w4, hlen1']
          simp [List.length_cons]
          omega
        · intro k
          rw [w5 k, assoc_lookup_cons]
          by_cases hk : e.1 = k
          · rw [if_pos hk]
            have hrk : assoc_lookup rest k = Option.none := by
              rw [assoc_lookup_eq_none_iff]
              intro e' he' heq
              exact hnd.1 (hk ▸ heq ▸ List.mem_map.mpr ⟨e', he', rfl⟩)
            rw [hrk]
            rw [← hk]
            exact hget1
          · rw [if_neg hk]
            rcases hr : assoc_lookup rest k with _ | v
            · exact hframe1 k (fun h0 => hk h0.symm)
            · rfl

/-- `rehash` satisfies its specification whenever its inner `insert`
does. -/
theorem rehash_step_spec (hash : K → Nat)
    (insertFn : HashMap K V → K → V → Option (Option V × HashMap K V))
    (hins : InsertOK hash insertFn) :
    RehashOK hash (rehash_step insertFn) := by
  intro m m' hWF hbne hreh
  rw [rehash_step] at hreh
  have hfreshWF : WF hash
      (with_exact_capacity (m.buckets.length * 2) m.load_factor : HashMap K V) :=
    WF_with_exact_capacity hash _ _
  have hfresh_ne : (with_exact_capacity (m.buckets.length * 2) m.load_factor :
      HashMap K V).buckets ≠ [] := by
    rw [with_exact_capacity]
    intro h0
    have hl := congrArg List.length h0
    simp only [List.length_replicate, List.length_nil] at hl
    have hpos := List.length_pos.mpr hbne
    omega
  obtain ⟨w1, w2, w3, w4, w5⟩ := refill_spec hash insertFn hins (entries m) _ m'
    hfreshWF hfresh_ne hWF.2.1 (fun e _ => rfl) hreh
  refine ⟨w1, ?_, ?_, w3, w2⟩
  · intro k
    rw [w5 k, get_eq_assoc hWF]
    rcases h : assoc_lookup (entries m) k with _ | v
    · rfl
    · rfl
  · rw [w4, hWF.1]
    show 0 + (entries m).length = (entries m).length
    omega

/-- Every gas-indexed instance of `insert` meets the insert
specification. -/
theorem insert_gas_ok (hash : K → Nat) :
    ∀ gas, InsertOK hash (insert_gas (K := K) (V := V) hash gas)
  | 0 => by
      intro m key value old m' _ hins
      cases hins
  | gas + 1 => insert_step_spec hash _ (rehash_step_spec hash _ (insert_gas_ok hash gas))

/-- Every gas-indexed instance of `rehash` meets the rehash
specification. -/
theorem rehash_gas_ok (hash : K → Nat) (gas : Nat) :
    RehashOK hash (rehash_gas (K := K) (V := V) hash gas) :=
  rehash_step_spec hash _ (insert_gas_ok hash gas)

end ChainingHashing

namespace ChainingHashing

variable {K V : Type} [DecidableEq K] [DecidableEq V]

/-- C2 (confirmed): on any well-formed chaining table, a terminating insert
of a key that is not present returns nothing and a following `get` of the
key answers the inserted value; inserting a present key returns the
previous value (upsert), with `get` again answering the new value. -/
theorem c2_chaining_insert_get_roundtrip (hash : K → Nat) (gas : Nat)
    (m : HashMap K V) (key : K) (value : V) (old : Option V) (m' : HashMap K V)
    (hWF : WF hash m) (hins : insert_gas hash gas m key value = some (old, m')) :
    (get hash m key = Option.none → old = Option.none ∧ get hash m' key = some value) ∧
    (∀ w, get hash m key = some w → old = some w ∧ get hash m' key = some value) := by
  obtain ⟨_, hold, hget, _, _, _, _⟩ := insert_gas_ok hash gas m key value old m' hWF hins
  exact ⟨fun h => ⟨hold.trans h, hget⟩, fun w h => ⟨hold.trans h, hget⟩⟩

/-- Witness for C2: inserting key 5 into a fresh 8-bucket table. -/
theorem c2_witness :
    WF id (with_exact_capacity 8 (mkRat 1 1) : HashMap Nat Nat) ∧
    get id (with_exact_capacity 8 (mkRat 1 1) : HashMap Nat Nat) 5 = Option.none ∧
    (insert_gas id 1 (with_exact_capacity 8 (mkRat 1 1) : HashMap Nat Nat) 5 42).elim
      False (fun r => r.1 = Option.none ∧ get id r.2 5 = some 42) := by
  have hwf : WF id (with_exact_capacity 8 (mkRat 1 1) : HashMap Nat Nat) :=
    WF_with_exact_capacity id 8 (mkRat 1 1)
  refine ⟨hwf, rfl, ?_⟩
  have hs : (insert_gas id 1 (with_exact_capacity 8 (mkRat 1 1) :
      HashMap Nat Nat) 5 42).isSome = true := by decide
  rcases hres : insert_gas id 1 (with_exact_capacity 8 (mkRat 1 1) :
      HashMap Nat Nat) 5 42 with _ | r
  · rw [hres] at hs
    cases hs
  · have h := c2_chaining_insert_get_roundtrip id 1 _ 5 42 r.1 r.2 hwf hres
    exact h.1 rfl

/-- C3 (confirmed): a terminating doubling rehash of a well-formed chaining
table preserves every key's mapping and the length, keeps keys unique, and
its entry list is a permutation of the old one — no entry is lost or
duplicated. -/
theorem c3_chaining_rehash_preserves_content (hash : K → Nat) (gas : Nat)
    (m m' : HashMap K V) (hWF : WF hash m) (hbne : m.buckets ≠ [])
    (hreh : rehash_gas hash gas m = some m') :
    (∀ key, get hash m' key = get hash m key) ∧
    m'.length = m.length ∧
    ((entries m').map Prod.fst).Nodup ∧
    (entries m').Perm (entries m) := by
  obtain ⟨hWF', hget, hlen, _, _⟩ := rehash_gas_ok hash gas m m' hWF hbne hreh
  refine ⟨hget, hlen, hWF'.2.1, ?_⟩
  rw [List.perm_ext_iff_of_nodup (List.Nodup.of_map _ hWF'.2.1)
    (List.Nodup.of_map _ hWF.2.1)]
  rintro ⟨k, v⟩
  constructor
  · intro ha
    exact (get_iff_mem hWF k v).mp (by rw [← hget k]; exact (get_iff_mem hWF' k v).mpr ha)
  · intro ha
    exact (get_iff_mem hWF' k v).mp (by rw [hget k]; exact (get_iff_mem hWF k v).mpr ha)

/-- Witness for C3: rehashing a two-bucket table holding keys 0 and 1. -/
theorem c3_witness :
    (rehash_gas id 1 (⟨[[(0, 10)], [(1, 11)]], 2, mkRat 1 1⟩ : HashMap Nat Nat)).elim
      False (fun m' => m'.length = 2 ∧
        get id m' 0 = get id (⟨[[(0, 10)], [(1, 11)]], 2, mkRat 1 1⟩ : HashMap Nat Nat) 0 ∧
        get id m' 1 = get id (⟨[[(0, 10)], [(1, 11)]], 2, mkRat 1 1⟩ : HashMap Nat Nat) 1) := by
  have hwf : WF id (⟨[[(0, 10)], [(1, 11)]], 2, mkRat 1 1⟩ : HashMap Nat Nat) := by
    refine ⟨by decide, by decide, ?_⟩
    intro i chain h e he
    rcases i with _ | _ | i
    · injection h with h1
      subst h1
      have := List.mem_singleton.mp he
      subst this
      decide
    · injection h with h1
      subst h1
      have := List.mem_singleton.mp he
      subst this
      decide
    · cases h
  have hs : (rehash_gas id 1 (⟨[[(0, 10)], [(1, 11)]], 2, mkRat 1 1⟩ :
      HashMap Nat Nat)).isSome = true := by decide
  rcases hres : rehash_gas id 1 (⟨[[(0, 10)], [(1, 11)]], 2, mkRat 1 1⟩ :
      HashMap Nat Nat) with _ | m'
  · rw [hres] at hs
    cases hs
  · obtain ⟨hget, hlen, _, _⟩ := c3_chaining_rehash_preserves_content id 1 _ m' hwf
      (by decide) hres
    exact ⟨hlen, hget 0, hget 1⟩

/-- C7 (confirmed): on a well-formed chaining table, removing a present key
returns its value, after which the key answers nothing and every other key
is unchanged; removing an absent key returns nothing and leaves the state
identical.  The chain surgery re-links correctly in every position: for any
split of a chain at the first entry carrying the key — head, middle or sole
entry — the entry is dropped and the rest re-joined. -/
theorem c7_chaining_remove_relinks_and_frames (hash : K → Nat)
    (m : HashMap K V) (key : K) (hWF : WF hash m) :
    ((remove hash m key).2 = get hash m key) ∧
    (get hash m key = Option.none → remove hash m key = (m, Option.none)) ∧
    (∀ v, get hash m key = some v →
      (remove hash m key).2 = some v ∧
      get hash (remove hash m key).1 key = Option.none ∧
      (∀ k', k' ≠ key → get hash (remove hash m key).1 k' = get hash m k') ∧
      (remove hash m key).1.length = m.length - 1) ∧
    (∀ (pre post : List (K × V)) (v : V), (∀ e ∈ pre, e.1 ≠ key) →
      remove_chain key (pre ++ (key, v) :: post) = (pre ++ post, some v)) := by
  refine ⟨remove_snd_eq_get hash m key, ?_, ?_, ?_⟩
  · intro h
    exact remove_none_noop (by rw [remove_snd_eq_get, h])
  · intro v h
    have hrs : (remove hash m key).2 = some v := by rw [remove_snd_eq_get, h]
    obtain ⟨_, hlen, _, _, hget0, hframe, _⟩ := remove_some_spec hWF hrs
    exact ⟨hrs, hget0, hframe, hlen⟩
  · intro pre post v
    induction pre with
    | nil =>
        intro _
        simp [remove_chain]
    | cons e rest ih =>
        intro hpre
        have hne : e.1 ≠ key := hpre e (List.mem_cons_self _ _)
        rw [List.cons_append]
        have hrec := ih (fun x hx => hpre x (List.mem_cons_of_mem _ hx))
        simp only [remove_chain, hne, ite_false, if_neg]
        rw [hrec]
        simp

/-- Witness for C7: removing the middle entry of a three-entry chain. -/
theorem c7_witness :
    WF id (⟨[[(0, 1), (3, 2), (6, 3)]], 3, mkRat 1 1⟩ : HashMap Nat Nat) ∧
    get id (⟨[[(0, 1), (3, 2), (6, 3)]], 3, mkRat 1 1⟩ : HashMap Nat Nat) 3 = some 2 ∧
    (remove id (⟨[[(0, 1), (3, 2), (6, 3)]], 3, mkRat 1 1⟩ : HashMap Nat Nat) 3).2 =
      some 2 ∧
    get id (remove id (⟨[[(0, 1), (3, 2), (6, 3)]], 3, mkRat 1 1⟩ :
      HashMap Nat Nat) 3).1 3 = Option.none ∧
    get id (remove id (⟨[[(0, 1), (3, 2), (6, 3)]], 3, mkRat 1 1⟩ :
      HashMap Nat Nat) 3).1 6 =
      get id (⟨[[(0, 1), (3, 2), (6, 3)]], 3, mkRat 1 1⟩ : HashMap Nat Nat) 6 := by
  have hwf : WF id (⟨[[(0, 1), (3, 2), (6, 3)]], 3, mkRat 1 1⟩ : HashMap Nat Nat) := by
    refine ⟨by decide, by decide, ?_⟩
    intro i chain h e he
    rcases i with _ | i
    · injection h with h1
      subst h1
      show id e.1 % 1 = 0
      simp [Nat.mod_one]
    · cases h
  have h := c7_chaining_remove_relinks_and_frames id
    (⟨[[(0, 1), (3, 2), (6, 3)]], 3, mkRat 1 1⟩ : HashMap Nat Nat) 3 hwf
  have h3 := h.2.2.1 2 (by decide)
  exact ⟨hwf, by decide, h3.1, h3.2.1, h3.2.2.1 6 (by decide)⟩

end ChainingHashing

namespace CuckooHashing

variable {K V : Type} [DecidableEq K] [DecidableEq V]

/-- Unfolding equation of the gas-indexed insert. -/
theorem insert_gas_succ (fam : Nat → K → Nat) (supply : Nat → Nat) (gas : Nat) :
    insert_gas (K := K) (V := V) fam supply (gas + 1) =
      insert_step fam
        (fun t r => rehash_step supply (insert_gas fam supply gas) t r)
        (insert_gas fam supply gas) := rfl

/-- C5 (confirmed): when both candidate slots are occupied by keys distinct
from the inserted one (and no growth rehash triggers), `insert` evicts A's
occupant, installs the new entry, and runs the displacement loop for at most
`length` further iterations — `length + 1` placements in all.  If the loop
places the pending entry the insert succeeds with no rehash (second
conjunct); if the bound is exhausted, the table is rehashed at the same
capacity — the fresh table it refills has `buckets.length * 1` slots and two
freshly drawn hasher seeds (third conjunct) — and the pending entry is then
re-inserted recursively (first conjunct).  The displacement loop never
changes the size of either half (fourth conjunct). -/
theorem c5_cuckoo_displacement_bound_and_reseed
    (fam : Nat → K → Nat) (supply : Nat → Nat) (gas : Nat)
    (m : HashMap K V) (key : K) (value : V) (ea eb : K × V)
    (hne : m.buckets.isEmpty = false)
    (htrig : ¬ (m.load_factor ≤ fill_factor m))
    (ha : (table_a m).get? (index_a fam m key) = some (some ea))
    (hb : (table_b m).get? (index_b fam m key) = some (some eb))
    (hka : ¬ ea.1 = key) (hkb : ¬ eb.1 = key) :
    (∀ bas2 bbs2 pending,
      kick_loop fam m.hasher_a m.hasher_b m.length
          ((table_a m).set (index_a fam m key) (some (key, value))) (table_b m)
          ea false =
        some (KickResult.cycled bas2 bbs2 pending) →
      insert_gas fam supply (gas + 1) m key value =
        (rehash_gas fam supply gas { m with buckets := bas2 ++ bbs2 } 1).bind
          (fun m3 => insert_gas fam supply gas m3 pending.1 pending.2)) ∧
    (∀ bas2 bbs2,
      kick_loop fam m.hasher_a m.hasher_b m.length
          ((table_a m).set (index_a fam m key) (some (key, value))) (table_b m)
          ea false =
        some (KickResult.placed bas2 bbs2) →
      insert_gas fam supply (gas + 1) m key value =
        some (Option.none, { m with buckets := bas2 ++ bbs2, length := m.length + 1 })) ∧
    (∀ mm : HashMap K V,
      (with_exact_capacity supply mm.rng_ctr (mm.buckets.length * 1) mm.load_factor :
        HashMap K V).buckets.length = mm.buckets.length ∧
      (with_exact_capacity supply mm.rng_ctr (mm.buckets.length * 1) mm.load_factor :
        HashMap K V).hasher_a = supply mm.rng_ctr ∧
      (with_exact_capacity supply mm.rng_ctr (mm.buckets.length * 1) mm.load_factor :
        HashMap K V).hasher_b = supply (mm.rng_ctr + 1)) ∧
    (∀ (fuel : Nat) (bas bbs : List (Option (K × V))) (e : K × V) (f : Bool)
        (bas2 bbs2 : List (Option (K × V))) (pending : K × V),
      kick_loop fam m.hasher_a m.hasher_b fuel bas bbs e f =
        some (KickResult.cycled bas2 bbs2 pending) →
      bas2.length = bas.length ∧ bbs2.length = bbs.length) := by
  have hla : lazy_alloc m = m := by
    simp [lazy_alloc, hne]
  refine ⟨?_, ?_, ?_, ?_⟩
  · intro bas2 bbs2 pending hkick
    rw [insert_gas_succ, insert_step, hla, if_neg htrig, Option.some_bind, ha, hb]
    simp only [if_neg hka, if_neg hkb]
    rw [hkick]
    rfl
  · intro bas2 bbs2 hkick
    rw [insert_gas_succ, insert_step, hla, if_neg htrig, Option.some_bind, ha, hb]
    simp only [if_neg hka, if_neg hkb]
    rw [hkick]
    rfl
  · intro mm
    refine ⟨?_, rfl, rfl⟩
    simp [with_exact_capacity]
  · intro fuel
    induction fuel with
    | zero =>
        intro bas bbs e f bas2 bbs2 pending h
        rw [kick_loop] at h
        injection h with h1
        injection h1 with h2 h3 h4
        rw [← h2, ← h3]
        exact ⟨rfl, rfl⟩
    | succ n ihn =>
        intro bas bbs e f bas2 bbs2 pending h
        rw [kick_loop] at h
        split at h
        · rename_i sa sb hga hgb
          split at h
          · cases h
          · cases h
          · rename_i ea' eb'
            split at h
            · obtain ⟨w1, w2⟩ := ihn _ _ _ _ _ _ _ h
              exact ⟨w1.trans (List.length_set _ _ _), w2⟩
            · split at h
              · rename_i eb'' hgb2
                obtain ⟨w1, w2⟩ := ihn _ _ _ _ _ _ _ h
                exact ⟨w1, w2.trans (List.length_set _ _ _)⟩
              · cases h
        · cases h

end CuckooHashing

namespace CuckooHashing

/-- Witness for C5: on a four-slot table whose candidate slots for key 30
both hold other keys under a constant hash family, the displacement loop
cycles and the insert becomes a same-capacity rehash followed by a retry of
the evicted entry. -/
theorem c5_witness :
    c5_m.buckets.isEmpty = false ∧
    (¬ (c5_m.load_factor ≤ fill_factor c5_m)) ∧
    kick_loop (fun _ _ => 0) c5_m.hasher_a c5_m.hasher_b c5_m.length
        ((table_a c5_m).set (index_a (fun _ _ => 0) c5_m 30) (some (30, 3)))
        (table_b c5_m) (10, 1) false =
      some (KickResult.cycled [some (20, 2), Option.none]
        [some (10, 1), Option.none] (30, 3)) ∧
    insert_gas (fun _ _ => 0) (fun n => n) 2 c5_m 30 3 =
      (rehash_gas (fun _ _ => 0) (fun n => n) 1
          { c5_m with
            buckets := [some (20, 2), Option.none] ++ [some (10, 1), Option.none] }
          1).bind
        (fun m3 => insert_gas (fun _ _ => 0) (fun n => n) 1 m3 30 3) := by
  refine ⟨rfl, by decide, by decide, ?_⟩
  exact (c5_cuckoo_displacement_bound_and_reseed (fun _ _ => 0) (fun n => n) 1
    c5_m 30 3 (10, 1) (20, 2) rfl (by decide) (by decide) (by decide)
    (by decide) (by decide)).1
    [some (20, 2), Option.none] [some (10, 1), Option.none] (30, 3) (by decide)

end CuckooHashing

namespace QuadCuckooHashing

variable {K V : Type} [DecidableEq K] [DecidableEq V]

/-- Counterexample for C6: the first insert into a table built by `new`
materializes 256 slots (64 buckets of the default 4 slots each), not 64
slots as claimed. -/
theorem c6_counterexample :
    (c6_run.map fun r => (total_slots r.2, (r.2).buckets.length)) = some (256, 64) ∧
    ¬ ((c6_run.map fun r => total_slots r.2) = some 64) := by
  constructor
  · decide
  · decide

/-- C6 (amended): a quad-cuckoo table constructed with an empty bucket
array lazily materializes, at the top of the first insert, 64 *buckets* of
`bucket_size` slots each — `64 * bucket_size` slots in total, not 64 slots;
with the default `bucket_size` of 4 used by `new` (which starts empty),
that is 256 slots. -/
theorem c6_lazy_alloc_sixty_four_buckets (m : HashMap K V)
    (hne : m.buckets.isEmpty = true) :
    (lazy_alloc m).buckets =
      List.replicate 64 (List.replicate m.bucket_size Option.none) ∧
    (lazy_alloc m).buckets.length = 64 ∧
    total_slots (lazy_alloc m) = 64 * m.bucket_size ∧
    (∀ supply ctr,
      ((new supply ctr : Option (HashMap K V)).map
        fun t => (t.bucket_size, t.buckets.length)) = some (4, 0)) := by
  have hb : (lazy_alloc m).buckets =
      List.replicate 64 (List.replicate m.bucket_size Option.none) := by
    simp [lazy_alloc, hne]
  refine ⟨hb, ?_, ?_, ?_⟩
  · rw [hb, List.length_replicate]
  · rw [total_slots, hb, List.map_replicate, List.length_replicate,
      List.sum_replicate, smul_eq_mul]
  · intro supply ctr
    simp [new, with_exact_capacity]

/-- Witness for the amended C6 on a concrete empty-constructed table. -/
theorem c6_witness :
    ((⟨[], 4, [0, 1, 2, 3], mkRat 4 5, 0, 4⟩ : HashMap Nat Nat).buckets.isEmpty
      = true) ∧
    total_slots (lazy_alloc (⟨[], 4, [0, 1, 2, 3], mkRat 4 5, 0, 4⟩ :
      HashMap Nat Nat)) = 64 * 4 :=
  ⟨rfl, (c6_lazy_alloc_sixty_four_buckets
    (⟨[], 4, [0, 1, 2, 3], mkRat 4 5, 0, 4⟩ : HashMap Nat Nat) rfl).2.2.1⟩

end QuadCuckooHashing

namespace QuadCuckooHashing

variable {K V : Type} [DecidableEq K] [DecidableEq V]

/-- Counterexample for C8: a capacity evenly divisible by both the bucket
size and the hasher count can still abort construction — capacity 4 with
bucket size 2 and 4 hashers satisfies both divisibility conditions but
fails the first assertion (`capacity == 0 || capacity >= bucket_size *
hasher_amount`), so divisibility is not the exact abort condition. -/
theorem c8_counterexample :
    (with_exact_capacity (fun n => n) 0 4 2 4 (mkRat 1 2) :
      Option (HashMap Nat Nat)).isSome = false ∧
    4 % 2 = 0 ∧ 4 % 4 = 0 ∧ (4 : Nat) ≠ 0 := by
  constructor
  · decide
  · decide

/-- C8 (amended): the quad-cuckoo constructor succeeds exactly when the
capacity is zero or at least `bucket_size * hasher_amount`, the bucket size
is nonzero and divides the capacity, and the hasher count is nonzero and
divides the capacity; on success the table is never clamped — it has
exactly `capacity / bucket_size` buckets of `bucket_size` slots, `capacity`
slots in total, and `hasher_amount` hashers.  The fixed concurrent table's
constructor aborts exactly on zero capacity and otherwise allocates exactly
`capacity * 8` buckets. -/
theorem c8_construction_assertions (supply : Nat → Nat) (ctr cap bs h : Nat)
    (lf : ℚ) :
    ((with_exact_capacity supply ctr cap bs h lf :
        Option (HashMap K V)).isSome = true ↔
      (cap = 0 ∨ bs * h ≤ cap) ∧ bs ≠ 0 ∧ cap % bs = 0 ∧ h ≠ 0 ∧ cap % h = 0) ∧
    (∀ t : HashMap K V, with_exact_capacity supply ctr cap bs h lf = some t →
      t.buckets.length = cap / bs ∧ t.bucket_size = bs ∧
      t.hasher_vec.length = h ∧ total_slots t = cap) ∧
    (∀ c : Nat,
      ((ConcurrentOptimized.with_capacity c :
        Option (ConcurrentOptimized.HashMap K V)) = Option.none ↔ c = 0)) ∧
    (∀ (c : Nat) (t : ConcurrentOptimized.HashMap K V),
      ConcurrentOptimized.with_capacity c = some t →
      t.buckets.length = c * 8) := by
  refine ⟨⟨?_, ?_⟩, ?_, ?_, ?_⟩
  · intro hs
    rw [with_exact_capacity] at hs
    by_cases h1 : cap = 0 ∨ bs * h ≤ cap
    · rw [if_pos h1] at hs
      by_cases h2 : bs ≠ 0 ∧ cap % bs = 0
      · rw [if_pos h2] at hs
        by_cases h3 : h ≠ 0 ∧ cap % h = 0
        · exact ⟨h1, h2.1, h2.2, h3.1, h3.2⟩
        · rw [if_neg h3] at hs
          simp at hs
      · rw [if_neg h2] at hs
        simp at hs
    · rw [if_neg h1] at hs
      simp at hs
  · intro hr
    rw [with_exact_capacity, if_pos hr.1, if_pos ⟨hr.2.1, hr.2.2.1⟩,
      if_pos ⟨hr.2.2.2.1, hr.2.2.2.2⟩]
    rfl
  · intro t ht
    rw [with_exact_capacity] at ht
    by_cases h1 : cap = 0 ∨ bs * h ≤ cap
    · rw [if_pos h1] at ht
      by_cases h2 : bs ≠ 0 ∧ cap % bs = 0
      · rw [if_pos h2] at ht
        by_cases h3 : h ≠ 0 ∧ cap % h = 0
        · rw [if_pos h3] at ht
          injection ht with ht
          subst ht
          refine ⟨by simp, rfl, by simp, ?_⟩
          rw [total_slots]
          simp only [List.map_replicate, List.length_replicate,
            List.sum_replicate, smul_eq_mul]
          exact Nat.div_mul_cancel (Nat.dvd_of_mod_eq_zero h2.2)
        · rw [if_neg h3] at ht
          simp at ht
      · rw [if_neg h2] at ht
        simp at ht
    · rw [if_neg h1] at ht
      simp at ht
  · intro c
    constructor
    · intro hnone
      by_contra hc
      rw [ConcurrentOptimized.with_capacity,
        if_pos (Nat.pos_of_ne_zero hc)] at hnone
      simp at hnone
    · intro hc
      subst hc
      rfl
  · intro c t ht
    rw [ConcurrentOptimized.with_capacity] at ht
    by_cases hc : c > 0
    · rw [if_pos hc] at ht
      injection ht with ht
      subst ht
      simp [ConcurrentOptimized.with_exact_capacity]
    · rw [if_neg hc] at ht
      simp at ht

/-- Witness for the amended C8: a valid quad configuration (capacity 8,
bucket size 2, 4 hashers) succeeds; the concurrent table aborts on zero
capacity and allocates 24 buckets for a requested capacity of 3. -/
theorem c8_witness :
    (with_exact_capacity (fun n => n) 0 8 2 4 (mkRat 1 2) :
      Option (HashMap Nat Nat)).isSome = true ∧
    ((ConcurrentOptimized.with_capacity 0 :
      Option (ConcurrentOptimized.HashMap Nat Nat)) = Option.none) ∧
    ((ConcurrentOptimized.with_capacity 3 :
      Option (ConcurrentOptimized.HashMap Nat Nat)).map
        fun t => t.buckets.length) = some 24 := by
  refine ⟨?_, ?_, ?_⟩
  · exact (c8_construction_assertions (V := Nat) (fun n => n) 0 8 2 4
      (mkRat 1 2)).1.mpr (by decide)
  · exact (c8_construction_assertions (K := Nat) (V := Nat) (fun n => n) 0 8 2 4
      (mkRat 1 2)).2.2.1 0 |>.mpr rfl
  · have ht : (ConcurrentOptimized.with_capacity 3 :
        Option (ConcurrentOptimized.HashMap Nat Nat)) =
        some (ConcurrentOptimized.with_exact_capacity 24) := rfl
    rw [ht, Option.map_some']
    exact congrArg some
      ((c8_construction_assertions (K := Nat) (V := Nat) (fun n => n) 0 8 2 4
        (mkRat 1 2)).2.2.2 3 _ ht)

end QuadCuckooHashing
